import Mathlib

/-!
# Verification of the `ize` clustering / faceting core

Shallow embedding of the Go package `backend/internal/ize` (files
`similarity.go`, `hierarchical.go`, `ripper.go`, `cluster.go`, and the
decision-list rule-fitting code) together with proofs about the embedded
functions.

Modelling conventions:
* Go `float64` arithmetic is modelled by exact rational arithmetic (`ℚ`).
  All float values appearing here are ratios of small integer counts, so the
  rational model agrees with the float semantics on every comparison that the
  claims depend on; comments note the one place (`minGroupSize`) where float
  rounding is examined explicitly.
* A Go `map[string]bool` used as a set of strings (`FacetSet`) is modelled as
  `Finset String`.
* Items (`Result` values) are carried through the algorithms opaquely in Go;
  they are represented here by their index in the input sequence (item ids are
  unique within a call, so the index determines the item).
* Go iterates maps in an unspecified order.  Where the iteration order can
  influence a result (`facetValueStats` in rule fitting, `facetValueMap` in
  the RIPPER loop) the embedded function takes the enumeration order as an
  explicit list parameter; a canonical deterministic enumeration is supplied
  for entry points, and theorems about order (in)dependence quantify over the
  enumeration.
-/

/-- `FacetSet` is an item's facets as a set of `"facetName:facetValue"`
strings (Go: `type FacetSet map[string]bool`, the keys of the map). -/
abbrev FacetSet := Finset String

/-! ## similarity.go: Jaccard distance and the distance matrix -/

/-- Go `jaccardDistance`: `1 - |A ∩ B| / |A ∪ B|`, with two empty sets
defined as maximally distant.  The Go loop computes `intersection` as the
number of keys of `b` present in `a`, and `union` as `len(a)` plus the number
of keys of `b` absent from `a`. -/
def jaccardDistance (a b : FacetSet) : ℚ :=
  if a.card = 0 ∧ b.card = 0 then 1
  else
    let intersection := (b.filter (fun k => k ∈ a)).card
    let union := a.card + (b.filter (fun k => k ∉ a)).card
    if union = 0 then 1
    else 1 - (intersection : ℚ) / (union : ℚ)

/-- Go `buildDistanceMatrix`: an `n×n` matrix with zero diagonal whose upper
triangle is filled with `jaccardDistance` and mirrored to the lower
triangle. -/
def buildDistanceMatrix (facetSets : List FacetSet) : List (List ℚ) :=
  let n := facetSets.length
  (List.range n).map (fun i =>
    (List.range n).map (fun j =>
      if i = j then 0
      else if i < j then jaccardDistance (facetSets.getD i ∅) (facetSets.getD j ∅)
      else jaccardDistance (facetSets.getD j ∅) (facetSets.getD i ∅)))

/-- Matrix entry access (Go `matrix[i][j]`). -/
def dmGet (m : List (List ℚ)) (i j : ℕ) : ℚ := (m.getD i []).getD j 0

/-! ### Properties of `jaccardDistance` and `buildDistanceMatrix` -/

theorem jaccardDistance_empty_empty : jaccardDistance ∅ ∅ = 1 := by
  simp [jaccardDistance]

theorem jaccardDistance_self (s : FacetSet) (hs : s ≠ ∅) : jaccardDistance s s = 0 := by
  have hcard : s.card ≠ 0 := by
    simpa [Finset.card_eq_zero] using hs
  unfold jaccardDistance
  rw [if_neg (by simp [hcard])]
  have h1 : (s.filter (fun k => k ∈ s)).card = s.card := by
    congr 1
    simp [Finset.filter_eq_self]
  have h2 : (s.filter (fun k => k ∉ s)).card = 0 := by
    simp [Finset.filter_eq_empty_iff]
  simp only [h1, h2, Nat.add_zero]
  rw [if_neg hcard]
  have : ((s.card : ℚ)) ≠ 0 := by exact_mod_cast hcard
  field_simp

theorem jaccardDistance_nonneg (a b : FacetSet) : 0 ≤ jaccardDistance a b := by
  unfold jaccardDistance
  split
  · norm_num
  · simp only []
    split
    · norm_num
    · rename_i hu
      have hle : ((b.filter (fun k => k ∈ a)).card : ℚ) ≤
          ((a.card + (b.filter (fun k => k ∉ a)).card : ℕ) : ℚ) := by
        have h1 : (b.filter (fun k => k ∈ a)).card ≤ a.card :=
          Finset.card_le_card (by intro x hx; exact (Finset.mem_filter.mp hx).2)
        exact_mod_cast Nat.le_trans h1 (Nat.le_add_right _ _)
      have hpos : (0 : ℚ) < ((a.card + (b.filter (fun k => k ∉ a)).card : ℕ) : ℚ) := by
        exact_mod_cast Nat.pos_of_ne_zero hu
      have := div_le_one_of_le₀ hle (le_of_lt hpos)
      linarith

theorem jaccardDistance_le_one (a b : FacetSet) : jaccardDistance a b ≤ 1 := by
  unfold jaccardDistance
  split
  · norm_num
  · simp only []
    split
    · norm_num
    · rename_i hu
      have hpos : (0 : ℚ) < ((a.card + (b.filter (fun k => k ∉ a)).card : ℕ) : ℚ) := by
        exact_mod_cast Nat.pos_of_ne_zero hu
      have hnn : (0 : ℚ) ≤ ((b.filter (fun k => k ∈ a)).card : ℚ) := by positivity
      have := div_nonneg hnn (le_of_lt hpos)
      linarith

theorem buildDistanceMatrix_get (fs : List FacetSet) (i j : ℕ)
    (hi : i < fs.length) (hj : j < fs.length) :
    dmGet (buildDistanceMatrix fs) i j =
      (if i = j then 0
       else if i < j then jaccardDistance (fs.getD i ∅) (fs.getD j ∅)
       else jaccardDistance (fs.getD j ∅) (fs.getD i ∅)) := by
  unfold dmGet buildDistanceMatrix
  simp [List.getD_eq_getElem?_getD, List.getElem?_map, List.getElem?_range hi,
        List.getElem?_range hj]

/-- Claim C6: for every list of facet sets the matrix built by
`buildDistanceMatrix` is symmetric with zero diagonal and every entry in
`[0,1]`; moreover the Jaccard distance of two empty facet sets is `1.0` and
of two identical nonempty sets is `0.0`. -/
theorem distanceMatrix_symm_bounds :
    (∀ (fs : List FacetSet) (i j : ℕ), i < fs.length → j < fs.length →
       dmGet (buildDistanceMatrix fs) i j = dmGet (buildDistanceMatrix fs) j i ∧
       dmGet (buildDistanceMatrix fs) i i = 0 ∧
       0 ≤ dmGet (buildDistanceMatrix fs) i j ∧
       dmGet (buildDistanceMatrix fs) i j ≤ 1) ∧
    jaccardDistance ∅ ∅ = 1 ∧
    (∀ s : FacetSet, s ≠ ∅ → jaccardDistance s s = 0) := by
  refine ⟨?_, jaccardDistance_empty_empty, jaccardDistance_self⟩
  intro fs i j hi hj
  rw [buildDistanceMatrix_get fs i j hi hj, buildDistanceMatrix_get fs j i hj hi,
      buildDistanceMatrix_get fs i i hi hi]
  refine ⟨?_, by simp, ?_, ?_⟩
  · rcases lt_trichotomy i j with h | h | h
    · rw [if_neg (Nat.ne_of_lt h), if_pos h, if_neg (Nat.ne_of_gt h),
          if_neg (by omega : ¬ j < i)]
    · simp [h]
    · rw [if_neg (Nat.ne_of_gt h), if_neg (by omega : ¬ i < j), if_neg (Nat.ne_of_lt h),
          if_pos h]
  · split
    · norm_num
    · split
      · exact jaccardDistance_nonneg _ _
      · exact jaccardDistance_nonneg _ _
  · split
    · norm_num
    · split
      · exact jaccardDistance_le_one _ _
      · exact jaccardDistance_le_one _ _

/-- Witness for `distanceMatrix_symm_bounds` at a concrete two-item input. -/
theorem distanceMatrix_symm_bounds_witness :
    (0 < [({"a:b"} : FacetSet), ∅].length ∧ 1 < [({"a:b"} : FacetSet), ∅].length ∧
      ({"a:b"} : FacetSet) ≠ ∅) ∧
    (dmGet (buildDistanceMatrix [({"a:b"} : FacetSet), ∅]) 0 1 =
       dmGet (buildDistanceMatrix [({"a:b"} : FacetSet), ∅]) 1 0 ∧
     dmGet (buildDistanceMatrix [({"a:b"} : FacetSet), ∅]) 0 0 = 0 ∧
     0 ≤ dmGet (buildDistanceMatrix [({"a:b"} : FacetSet), ∅]) 0 1 ∧
     dmGet (buildDistanceMatrix [({"a:b"} : FacetSet), ∅]) 0 1 ≤ 1) ∧
    jaccardDistance {"a:b"} {"a:b"} = 0 := by
  refine ⟨⟨by decide, by decide, by decide⟩, ?_, ?_⟩
  · exact distanceMatrix_symm_bounds.1 [({"a:b"} : FacetSet), ∅] 0 1 (by decide) (by decide)
  · exact distanceMatrix_symm_bounds.2.2 {"a:b"} (by decide)

/-! ## hierarchical.go: agglomerative clustering and the dendrogram -/

/-- Go `clusterNode`: a dendrogram node is either a leaf (one original item
index) or an internal node with two children and a merge height.  The Go
struct also stores the node's member index list and an id; the member list is
always the concatenation of the children's members (see `agglomerativeCluster`)
and is recovered by `ClusterNode.members`, and the id is never read. -/
inductive ClusterNode where
  | leaf (idx : ℕ)
  | node (l r : ClusterNode) (h : ℚ)
deriving Repr, DecidableEq, Inhabited

/-- The `members` field of a Go `clusterNode`: `[i]` at a leaf `i`, and the
children's members concatenated at an internal node. -/
def ClusterNode.members : ClusterNode → List ℕ
  | .leaf i => [i]
  | .node l r _ => l.members ++ r.members

/-- The `height` field of a Go `clusterNode` (0 at leaves). -/
def ClusterNode.height : ClusterNode → ℚ
  | .leaf _ => 0
  | .node _ _ h => h

/-- Go `node.left != nil && node.right != nil`. -/
def ClusterNode.isInternal : ClusterNode → Bool
  | .leaf _ => false
  | .node _ _ _ => true

/-- Go `averageLinkageDistance`: mean of the pairwise distances between the
two clusters' members.  Go returns `+Inf` when the pair count is zero; member
lists are nonempty by construction (`ClusterNode.members_ne_nil`), so that
branch is unreachable and the plain rational division is exact in every use. -/
def averageLinkageDistance (a b : ClusterNode) (distMatrix : List (List ℚ)) : ℚ :=
  let totalDist := (a.members.map (fun i => (b.members.map (fun j => dmGet distMatrix i j)).sum)).sum
  let count := a.members.length * b.members.length
  totalDist / (count : ℚ)

/-- The index pairs `(i, j)` with `i < j < m` in the order the nested Go
loops of `findClosestClusters` visit them. -/
def pairList (m : ℕ) : List (ℕ × ℕ) :=
  (List.range m).flatMap (fun i => ((List.range m).drop (i + 1)).map (fun j => (i, j)))

/-- Go `findClosestClusters`: scan all index pairs keeping the strictly
smallest average-linkage distance (first-found wins ties).  Go starts from
`minDist = +Inf`, so the first pair always becomes the initial minimum; the
empty-pair branch is unreachable because every caller has at least two
clusters. -/
def fccStep (clusters : List ClusterNode) (distMatrix : List (List ℚ))
    (best : ℕ × ℕ × ℚ) (q : ℕ × ℕ) : ℕ × ℕ × ℚ :=
  let d := averageLinkageDistance (clusters.getD q.1 default) (clusters.getD q.2 default)
    distMatrix
  if d < best.2.2 then (q.1, q.2, d) else best

def findClosestClusters (clusters : List ClusterNode) (distMatrix : List (List ℚ)) :
    ℕ × ℕ × ℚ :=
  match pairList clusters.length with
  | [] => (0, 1, 0)
  | p :: rest =>
    rest.foldl (fccStep clusters distMatrix)
      (p.1, p.2,
        averageLinkageDistance (clusters.getD p.1 default) (clusters.getD p.2 default) distMatrix)

/-- One iteration of the merge loop in Go `agglomerativeCluster`: merge the
two closest active clusters into a new node (removing index `minJ` first,
then `minI`, then appending the merged node). -/
def mergeStep (distMatrix : List (List ℚ)) (active : List ClusterNode) : List ClusterNode :=
  let best := findClosestClusters active distMatrix
  let newCluster :=
    ClusterNode.node (active.getD best.1 default) (active.getD best.2.1 default) best.2.2
  ((active.eraseIdx best.2.1).eraseIdx best.1) ++ [newCluster]

/-- The Go merge loop `for len(active) > 1`.  Each iteration removes exactly
one active cluster, so `n` iterations of fuel always suffice. -/
def aggLoop (distMatrix : List (List ℚ)) : ℕ → List ClusterNode → List ClusterNode
  | 0, active => active
  | fuel + 1, active =>
    if active.length ≤ 1 then active
    else aggLoop distMatrix fuel (mergeStep distMatrix active)

/-- Go `agglomerativeCluster`: start from one leaf per item, merge until one
cluster remains; `nil` (here `none`) for an empty matrix. -/
def agglomerativeCluster (distMatrix : List (List ℚ)) : Option ClusterNode :=
  if distMatrix.length = 0 then none
  else (aggLoop distMatrix distMatrix.length
    ((List.range distMatrix.length).map ClusterNode.leaf)).head?

/-- The number of internal nodes of a dendrogram.  Go `cutDendrogram`
collects the internal nodes by BFS and sorts them by height, but only the
length of that list is ever used (as the loop bound), so only the count is
modelled. -/
def countInternal : ClusterNode → ℕ
  | .leaf _ => 0
  | .node l r _ => countInternal l + countInternal r + 1

/-- Go `findHighestMergeCluster`: the index of the internal cluster with the
strictly highest merge height, starting from `maxHeight = -1`; `-1` (here
`none`) when no cluster can be split. -/
def hmcStep (best : Option ℕ × ℚ) (p : ℕ × ClusterNode) : Option ℕ × ℚ :=
  if p.2.isInternal = true ∧ best.2 < p.2.height then (some p.1, p.2.height) else best

def findHighestMergeCluster (clusters : List ClusterNode) : Option ℕ :=
  (clusters.enum.foldl hmcStep ((none : Option ℕ), (-1 : ℚ))).1

/-- One iteration of the split loop in Go `cutDendrogram`: replace the
splittable cluster with the highest merge height by its two children.  When
no cluster is splittable Go breaks out of the loop; returning the frontier
unchanged is equivalent, because the frontier then never changes again. -/
def cutStep (frontier : List ClusterNode) : List ClusterNode :=
  match findHighestMergeCluster frontier with
  | none => frontier
  | some idx =>
    match frontier.getD idx default with
    | .node l r _ => (frontier.eraseIdx idx) ++ [l, r]
    | .leaf _ => frontier

/-- The split loop of Go `cutDendrogram`, run a fixed number of times. -/
def cutLoop : ℕ → List ClusterNode → List ClusterNode
  | 0, f => f
  | m + 1, f => cutLoop m (cutStep f)

/-- Go `cutDendrogram`: `nil` for a nil root or `k ≤ 0`; otherwise start from
the root and undo the `min (k-1) (number of internal nodes)` loosest merges,
returning the member lists of the resulting frontier. -/
def cutDendrogram (root? : Option ClusterNode) (k : ℕ) : List (List ℕ) :=
  match root? with
  | none => []
  | some root =>
    if k = 0 then []
    else (cutLoop (min (k - 1) (countInternal root)) [root]).map ClusterNode.members

/-! ### Structural properties of the dendrogram -/

theorem ClusterNode.members_ne_nil : ∀ t : ClusterNode, t.members ≠ []
  | .leaf _ => by simp [ClusterNode.members]
  | .node l r _ => by
    simp only [ClusterNode.members, ne_eq, List.append_eq_nil]
    intro hc
    exact ClusterNode.members_ne_nil l hc.1

/-- All internal merge heights of a dendrogram are nonnegative. -/
def heightsNonneg : ClusterNode → Prop
  | .leaf _ => True
  | .node l r h => 0 ≤ h ∧ heightsNonneg l ∧ heightsNonneg r

theorem averageLinkageDistance_nonneg (a b : ClusterNode) (dm : List (List ℚ))
    (hdm : ∀ i j, 0 ≤ dmGet dm i j) : 0 ≤ averageLinkageDistance a b dm := by
  unfold averageLinkageDistance
  apply div_nonneg
  · apply List.sum_nonneg
    intro x hx
    simp only [List.mem_map] at hx
    obtain ⟨i, -, rfl⟩ := hx
    apply List.sum_nonneg
    intro y hy
    simp only [List.mem_map] at hy
    obtain ⟨j, -, rfl⟩ := hy
    exact hdm i j
  · positivity

theorem mem_pairList {m : ℕ} {p : ℕ × ℕ} (hp : p ∈ pairList m) :
    p.1 < p.2 ∧ p.2 < m := by
  unfold pairList at hp
  simp only [List.mem_flatMap, List.mem_map] at hp
  obtain ⟨i, hi, j, hj, rfl⟩ := hp
  obtain ⟨t, ht, hjt⟩ := List.mem_iff_getElem.mp hj
  rw [List.getElem_drop] at hjt
  rw [List.length_drop, List.length_range] at ht
  rw [List.getElem_range] at hjt
  simp only []
  omega

theorem pairList_ne_nil {m : ℕ} (h2 : 2 ≤ m) : pairList m ≠ [] := by
  have hmem : ((0 : ℕ), (1 : ℕ)) ∈ pairList m := by
    unfold pairList
    simp only [List.mem_flatMap, List.mem_map]
    refine ⟨0, by simp; omega, 1, ?_, rfl⟩
    refine List.mem_iff_getElem.mpr ⟨0, ?_, ?_⟩
    · rw [List.length_drop, List.length_range]; omega
    · rw [List.getElem_drop, List.getElem_range]
  intro hnil
  rw [hnil] at hmem
  exact absurd hmem (List.not_mem_nil _)

theorem fccFold_spec (clusters : List ClusterNode) (dm : List (List ℚ))
    (rest : List (ℕ × ℕ)) (init : ℕ × ℕ × ℚ)
    (h1 : (init.1, init.2.1) ∈ pairList clusters.length)
    (h2 : init.2.2 = averageLinkageDistance (clusters.getD init.1 default)
        (clusters.getD init.2.1 default) dm)
    (hall : ∀ q ∈ rest, q ∈ pairList clusters.length) :
    ((rest.foldl (fccStep clusters dm) init).1,
      (rest.foldl (fccStep clusters dm) init).2.1) ∈ pairList clusters.length ∧
    (rest.foldl (fccStep clusters dm) init).2.2 =
      averageLinkageDistance
        (clusters.getD (rest.foldl (fccStep clusters dm) init).1 default)
        (clusters.getD (rest.foldl (fccStep clusters dm) init).2.1 default) dm := by
  induction rest generalizing init with
  | nil => exact ⟨h1, h2⟩
  | cons q rest ih =>
    simp only [List.foldl_cons]
    by_cases hc : averageLinkageDistance (clusters.getD q.1 default)
        (clusters.getD q.2 default) dm < init.2.2
    · have hstep : fccStep clusters dm init q =
          (q.1, q.2, averageLinkageDistance (clusters.getD q.1 default)
            (clusters.getD q.2 default) dm) := by
        unfold fccStep
        rw [if_pos hc]
      rw [hstep]
      exact ih _ (hall q (by simp)) rfl (fun r hr => hall r (by simp [hr]))
    · have hstep : fccStep clusters dm init q = init := by
        unfold fccStep
        rw [if_neg hc]
      rw [hstep]
      exact ih _ h1 h2 (fun r hr => hall r (by simp [hr]))

theorem findClosestClusters_spec (clusters : List ClusterNode) (dm : List (List ℚ))
    (h2 : 2 ≤ clusters.length) :
    ((findClosestClusters clusters dm).1, (findClosestClusters clusters dm).2.1) ∈
        pairList clusters.length ∧
    (findClosestClusters clusters dm).2.2 =
      averageLinkageDistance
        (clusters.getD (findClosestClusters clusters dm).1 default)
        (clusters.getD (findClosestClusters clusters dm).2.1 default) dm := by
  unfold findClosestClusters
  split
  · rename_i hpl
    exact absurd hpl (pairList_ne_nil h2)
  · rename_i p rest hpl
    apply fccFold_spec
    · have : p ∈ pairList clusters.length := by rw [hpl]; simp
      simpa using this
    · rfl
    · intro q hq
      rw [hpl]
      simp [hq]

theorem perm_getElem_cons_eraseIdx {α : Type*} (l : List α) (i : ℕ) (h : i < l.length) :
    l.Perm (l[i] :: l.eraseIdx i) := by
  conv_lhs => rw [← List.take_append_drop i l, List.drop_eq_getElem_cons h]
  rw [List.eraseIdx_eq_take_drop_succ]
  exact List.perm_middle

theorem mergeStep_perm (dm : List (List ℚ)) (active : List ClusterNode)
    (h2 : 2 ≤ active.length) :
    ((mergeStep dm active).flatMap ClusterNode.members).Perm
      (active.flatMap ClusterNode.members) := by
  have hspec := findClosestClusters_spec active dm h2
  unfold mergeStep
  obtain ⟨⟨minI, minJ, d⟩, hfcc⟩ : ∃ r, findClosestClusters active dm = r := ⟨_, rfl⟩
  rw [hfcc] at hspec ⊢
  dsimp only at hspec ⊢
  obtain ⟨hmem, -⟩ := hspec
  obtain ⟨hij, hjm⟩ := mem_pairList hmem
  dsimp only at hij hjm
  have him : minI < active.length := lt_trans hij hjm
  have hlen1 : (active.eraseIdx minJ).length + 1 = active.length :=
    List.length_eraseIdx_add_one hjm
  have hiJ : minI < (active.eraseIdx minJ).length := by omega
  have hp1 : active.Perm (active[minJ] :: active.eraseIdx minJ) :=
    perm_getElem_cons_eraseIdx active minJ hjm
  have hp2 : (active.eraseIdx minJ).Perm
      ((active.eraseIdx minJ)[minI] :: (active.eraseIdx minJ).eraseIdx minI) :=
    perm_getElem_cons_eraseIdx _ minI hiJ
  have hgJI : (active.eraseIdx minJ)[minI] = active[minI] :=
    List.getElem_eraseIdx_of_lt active minJ minI hiJ hij
  rw [hgJI] at hp2
  have hp3 : active.Perm
      (active[minJ] :: active[minI] :: (active.eraseIdx minJ).eraseIdx minI) :=
    hp1.trans (hp2.cons _)
  have hflat := (hp3.map ClusterNode.members).flatten
  rw [← List.flatMap_def, ← List.flatMap_def] at hflat
  rw [List.getD_eq_getElem _ _ him, List.getD_eq_getElem _ _ hjm]
  simp only [List.flatMap_append, List.flatMap_cons, List.flatMap_nil,
    ClusterNode.members, List.append_nil] at hflat ⊢
  refine List.Perm.trans ?_ hflat.symm
  refine (List.perm_append_comm).trans ?_
  rw [← List.append_assoc]
  refine List.Perm.trans (List.Perm.append_right _ (List.perm_append_comm)) ?_
  rw [List.append_assoc]

theorem mergeStep_length (dm : List (List ℚ)) (active : List ClusterNode)
    (h2 : 2 ≤ active.length) :
    (mergeStep dm active).length + 1 = active.length := by
  have hspec := findClosestClusters_spec active dm h2
  unfold mergeStep
  obtain ⟨⟨minI, minJ, d⟩, hfcc⟩ : ∃ r, findClosestClusters active dm = r := ⟨_, rfl⟩
  rw [hfcc] at hspec ⊢
  dsimp only at hspec ⊢
  obtain ⟨hmem, -⟩ := hspec
  obtain ⟨hij, hjm⟩ := mem_pairList hmem
  dsimp only at hij hjm
  have hlen1 : (active.eraseIdx minJ).length + 1 = active.length :=
    List.length_eraseIdx_add_one hjm
  have hiJ : minI < (active.eraseIdx minJ).length := by omega
  have hlen2 : ((active.eraseIdx minJ).eraseIdx minI).length + 1 =
      (active.eraseIdx minJ).length := List.length_eraseIdx_add_one hiJ
  simp only [List.length_append, List.length_cons, List.length_nil]
  omega

theorem mergeStep_heightsNonneg (dm : List (List ℚ)) (active : List ClusterNode)
    (h2 : 2 ≤ active.length) (hdm : ∀ i j, 0 ≤ dmGet dm i j)
    (hall : ∀ t ∈ active, heightsNonneg t) :
    ∀ t ∈ mergeStep dm active, heightsNonneg t := by
  have hspec := findClosestClusters_spec active dm h2
  unfold mergeStep
  obtain ⟨⟨minI, minJ, d⟩, hfcc⟩ : ∃ r, findClosestClusters active dm = r := ⟨_, rfl⟩
  rw [hfcc] at hspec ⊢
  dsimp only at hspec ⊢
  obtain ⟨hmem, hd⟩ := hspec
  obtain ⟨hij, hjm⟩ := mem_pairList hmem
  dsimp only at hij hjm
  have him : minI < active.length := lt_trans hij hjm
  intro t ht
  rw [List.mem_append] at ht
  rcases ht with ht | ht
  · exact hall t (List.mem_of_mem_eraseIdx (List.mem_of_mem_eraseIdx ht))
  · rw [List.mem_singleton] at ht
    subst ht
    refine ⟨?_, ?_, ?_⟩
    · rw [hd]
      exact averageLinkageDistance_nonneg _ _ dm hdm
    · rw [List.getD_eq_getElem _ _ him]
      exact hall _ (List.getElem_mem him)
    · rw [List.getD_eq_getElem _ _ hjm]
      exact hall _ (List.getElem_mem hjm)

theorem aggLoop_spec (dm : List (List ℚ)) (hdm : ∀ i j, 0 ≤ dmGet dm i j) :
    ∀ (fuel : ℕ) (active : List ClusterNode),
      active ≠ [] → active.length ≤ fuel + 1 →
      (∀ t ∈ active, heightsNonneg t) →
      (aggLoop dm fuel active).length = 1 ∧
      ((aggLoop dm fuel active).flatMap ClusterNode.members).Perm
        (active.flatMap ClusterNode.members) ∧
      (∀ t ∈ aggLoop dm fuel active, heightsNonneg t) := by
  intro fuel
  induction fuel with
  | zero =>
    intro active hne hlen hall
    have : active.length = 1 := by
      have := List.length_pos.mpr hne
      omega
    exact ⟨this, List.Perm.refl _, hall⟩
  | succ fuel ih =>
    intro active hne hlen hall
    unfold aggLoop
    by_cases hle : active.length ≤ 1
    · rw [if_pos hle]
      have : active.length = 1 := by
        have := List.length_pos.mpr hne
        omega
      exact ⟨this, List.Perm.refl _, hall⟩
    · rw [if_neg hle]
      have h2 : 2 ≤ active.length := by omega
      have hlen' := mergeStep_length dm active h2
      have hperm := mergeStep_perm dm active h2
      have hh := mergeStep_heightsNonneg dm active h2 hdm hall
      have hne' : mergeStep dm active ≠ [] := by
        intro hc
        rw [hc] at hlen'
        simp at hlen'
        omega
      obtain ⟨hl, hp, hhh⟩ := ih (mergeStep dm active) hne' (by omega) hh
      exact ⟨hl, hp.trans hperm, hhh⟩

theorem agglomerativeCluster_spec (dm : List (List ℚ)) (hdm : ∀ i j, 0 ≤ dmGet dm i j)
    (hn : 1 ≤ dm.length) :
    ∃ root, agglomerativeCluster dm = some root ∧
      root.members.Perm (List.range dm.length) ∧ heightsNonneg root := by
  unfold agglomerativeCluster
  rw [if_neg (by omega : ¬ dm.length = 0)]
  have hinit : ((List.range dm.length).map ClusterNode.leaf) ≠ [] := by
    intro hc
    have hc2 := congrArg List.length hc
    rw [List.length_map, List.length_range, List.length_nil] at hc2
    omega
  have hlen0 : ((List.range dm.length).map ClusterNode.leaf).length = dm.length := by simp
  obtain ⟨hl, hp, hh⟩ := aggLoop_spec dm hdm dm.length
    ((List.range dm.length).map ClusterNode.leaf) hinit (by omega)
    (by
      intro t ht
      simp only [List.mem_map] at ht
      obtain ⟨i, -, rfl⟩ := ht
      trivial)
  obtain ⟨root, hroot⟩ : ∃ r, aggLoop dm dm.length ((List.range dm.length).map ClusterNode.leaf)
      = [r] := by
    cases hres : aggLoop dm dm.length ((List.range dm.length).map ClusterNode.leaf) with
    | nil => rw [hres] at hl; simp at hl
    | cons a rest =>
      rw [hres] at hl
      simp at hl
      exact ⟨a, by rw [hl]⟩
  refine ⟨root, by rw [hroot]; rfl, ?_, ?_⟩
  · rw [hroot] at hp
    simp only [List.flatMap_cons, List.flatMap_nil, List.append_nil] at hp
    refine hp.trans ?_
    have : (List.range dm.length).flatMap (fun i => (ClusterNode.leaf i).members) =
        List.range dm.length := by
      simp [ClusterNode.members]
    rw [List.flatMap_map]
    rw [this]
  · exact hh root (by rw [hroot]; simp)

theorem countInternal_add_one (t : ClusterNode) :
    countInternal t + 1 = t.members.length := by
  induction t with
  | leaf i => simp [countInternal, ClusterNode.members]
  | node l r h ihl ihr =>
    simp only [countInternal, ClusterNode.members, List.length_append]
    omega

theorem isInternal_of_two_le_members (t : ClusterNode) (h : 2 ≤ t.members.length) :
    t.isInternal = true := by
  cases t with
  | leaf i => simp [ClusterNode.members] at h
  | node l r ht => rfl

theorem heightsNonneg_height (t : ClusterNode) (ht : heightsNonneg t)
    (hint : t.isInternal = true) : 0 ≤ t.height := by
  cases t with
  | leaf i => simp [ClusterNode.isInternal] at hint
  | node l r h => exact ht.1

theorem hmcFold_spec (clusters : List ClusterNode) (l : List (ℕ × ClusterNode))
    (st : Option ℕ × ℚ)
    (hl : ∀ p ∈ l, p.1 < clusters.length ∧ clusters.getD p.1 default = p.2)
    (hst : ∀ i, st.1 = some i →
      i < clusters.length ∧ (clusters.getD i default).isInternal = true)
    (hnone : st.1 = none → st.2 = -1) :
    (∀ i, (l.foldl hmcStep st).1 = some i →
      i < clusters.length ∧ (clusters.getD i default).isInternal = true) ∧
    (((∃ p ∈ l, p.2.isInternal = true ∧ 0 ≤ p.2.height) ∨ (∃ i, st.1 = some i)) →
      ∃ i, (l.foldl hmcStep st).1 = some i) := by
  induction l generalizing st with
  | nil =>
    refine ⟨hst, ?_⟩
    rintro (⟨p, hp, -⟩ | hsome)
    · exact absurd hp (List.not_mem_nil _)
    · exact hsome
  | cons p rest ih =>
    simp only [List.foldl_cons]
    by_cases hc : p.2.isInternal = true ∧ st.2 < p.2.height
    · have hstep : hmcStep st p = (some p.1, p.2.height) := by
        unfold hmcStep
        rw [if_pos hc]
      rw [hstep]
      obtain ⟨hp1, hp2⟩ := hl p (by simp)
      obtain ⟨ha, hb⟩ := ih (some p.1, p.2.height) (fun q hq => hl q (by simp [hq]))
        (fun i hi => by
          have : p.1 = i := Option.some_injective _ hi
          subst this
          exact ⟨hp1, by rw [hp2]; exact hc.1⟩)
        (by simp)
      refine ⟨ha, fun _ => hb (Or.inr ⟨p.1, rfl⟩)⟩
    · have hstep : hmcStep st p = st := by
        unfold hmcStep
        rw [if_neg hc]
      rw [hstep]
      obtain ⟨ha, hb⟩ := ih st (fun q hq => hl q (by simp [hq])) hst hnone
      refine ⟨ha, ?_⟩
      rintro (⟨q, hq, hqint, hqh⟩ | hsome)
      · rcases List.mem_cons.mp hq with rfl | hq'
        · -- p itself is internal with height ≥ 0: st must already be some
          cases hstq : st.1 with
          | none =>
            exfalso
            apply hc
            refine ⟨hqint, ?_⟩
            rw [hnone hstq]
            calc (-1 : ℚ) < 0 := by norm_num
            _ ≤ q.2.height := hqh
          | some i => exact hb (Or.inr ⟨i, hstq⟩)
        · exact hb (Or.inl ⟨q, hq', hqint, hqh⟩)
      · exact hb (Or.inr hsome)

theorem findHighestMergeCluster_some (clusters : List ClusterNode) (idx : ℕ)
    (h : findHighestMergeCluster clusters = some idx) :
    idx < clusters.length ∧ (clusters.getD idx default).isInternal = true := by
  unfold findHighestMergeCluster at h
  refine (hmcFold_spec clusters clusters.enum ((none : Option ℕ), (-1 : ℚ))
    ?_ (by simp) (by simp)).1 idx h
  intro p hp
  refine ⟨List.fst_lt_of_mem_enum hp, ?_⟩
  have := List.mem_enum_iff_getElem?.mp hp
  rw [List.getD_eq_getElem?_getD, this]
  rfl

theorem findHighestMergeCluster_exists (clusters : List ClusterNode)
    (hh : ∀ t ∈ clusters, heightsNonneg t)
    (hint : ∃ t ∈ clusters, t.isInternal = true) :
    ∃ idx, findHighestMergeCluster clusters = some idx := by
  unfold findHighestMergeCluster
  refine (hmcFold_spec clusters clusters.enum ((none : Option ℕ), (-1 : ℚ))
    ?_ (by simp) (by simp)).2 ?_
  · intro p hp
    refine ⟨List.fst_lt_of_mem_enum hp, ?_⟩
    have := List.mem_enum_iff_getElem?.mp hp
    rw [List.getD_eq_getElem?_getD, this]
    rfl
  · left
    obtain ⟨t, htmem, htint⟩ := hint
    obtain ⟨i, hi, hti⟩ := List.mem_iff_getElem.mp htmem
    refine ⟨(i, t), ?_, htint, ?_⟩
    · rw [List.mem_enum_iff_getElem?]
      rw [List.getElem?_eq_getElem hi, hti]
    · exact heightsNonneg_height t (hh t htmem) htint

theorem cutStep_spec (frontier : List ClusterNode)
    (hh : ∀ t ∈ frontier, heightsNonneg t)
    (hint : ∃ t ∈ frontier, t.isInternal = true) :
    (cutStep frontier).length = frontier.length + 1 ∧
    ((cutStep frontier).flatMap ClusterNode.members).Perm
      (frontier.flatMap ClusterNode.members) ∧
    (∀ t ∈ cutStep frontier, heightsNonneg t) := by
  obtain ⟨idx, hidx⟩ := findHighestMergeCluster_exists frontier hh hint
  obtain ⟨hlt, hii⟩ := findHighestMergeCluster_some frontier idx hidx
  unfold cutStep
  rw [hidx]
  dsimp only
  rw [List.getD_eq_getElem _ _ hlt] at hii ⊢
  cases hnode : frontier[idx] with
  | leaf i => rw [hnode] at hii; simp [ClusterNode.isInternal] at hii
  | node l r ht =>
    have hmem : frontier[idx] ∈ frontier := List.getElem_mem hlt
    have hperm : frontier.Perm (frontier[idx] :: frontier.eraseIdx idx) :=
      perm_getElem_cons_eraseIdx frontier idx hlt
    have hlen : (frontier.eraseIdx idx).length + 1 = frontier.length :=
      List.length_eraseIdx_add_one hlt
    refine ⟨?_, ?_, ?_⟩
    · simp only [List.length_append, List.length_cons, List.length_nil]
      omega
    · have hflat := (hperm.map ClusterNode.members).flatten
      rw [← List.flatMap_def, ← List.flatMap_def] at hflat
      rw [hnode] at hflat
      simp only [List.flatMap_append, List.flatMap_cons, List.flatMap_nil,
        ClusterNode.members, List.append_nil] at hflat ⊢
      refine List.Perm.trans ?_ hflat.symm
      exact List.perm_append_comm
    · intro t ht'
      rw [List.mem_append] at ht'
      rcases ht' with ht' | ht'
      · exact hh t (List.mem_of_mem_eraseIdx ht')
      · have hhn := hh frontier[idx] hmem
        rw [hnode] at hhn
        rcases List.mem_cons.mp ht' with rfl | ht''
        · exact hhn.2.1
        · rw [List.mem_singleton] at ht''
          subst ht''
          exact hhn.2.2

theorem cutLoop_spec :
    ∀ (m : ℕ) (frontier : List ClusterNode),
      (∀ t ∈ frontier, heightsNonneg t) →
      frontier.length + m ≤ (frontier.flatMap ClusterNode.members).length →
      (cutLoop m frontier).length = frontier.length + m ∧
      ((cutLoop m frontier).flatMap ClusterNode.members).Perm
        (frontier.flatMap ClusterNode.members) ∧
      (∀ t ∈ cutLoop m frontier, heightsNonneg t) := by
  intro m
  induction m with
  | zero =>
    intro frontier hh _
    exact ⟨by simp [cutLoop], by simp [cutLoop], by simpa [cutLoop] using hh⟩
  | succ m ih =>
    intro frontier hh hcount
    have hint : ∃ t ∈ frontier, t.isInternal = true := by
      by_contra hno
      push_neg at hno
      have hall1 : ∀ t ∈ frontier, t.members.length = 1 := by
        intro t ht
        cases t with
        | leaf i => simp [ClusterNode.members]
        | node l r h => exact absurd rfl (hno _ ht)
      have : (frontier.flatMap ClusterNode.members).length = frontier.length := by
        rw [List.flatMap_def, List.length_flatten, List.map_map]
        have : frontier.map (List.length ∘ ClusterNode.members) =
            frontier.map (fun _ => 1) := by
          apply List.map_congr_left
          intro t ht
          exact hall1 t ht
        rw [this]
        simp [List.map_const]
      omega
    obtain ⟨hlen, hperm, hh'⟩ := cutStep_spec frontier hh hint
    have hcount' : (cutStep frontier).length + m ≤
        ((cutStep frontier).flatMap ClusterNode.members).length := by
      rw [hlen, hperm.length_eq]
      omega
    obtain ⟨ihlen, ihperm, ihh⟩ := ih (cutStep frontier) hh' hcount'
    unfold cutLoop
    refine ⟨by rw [ihlen, hlen]; omega, ihperm.trans hperm, ihh⟩

/-- Claim C10: for every dendrogram built by `agglomerativeCluster` from an
`n×n` distance matrix with nonnegative entries (`n ≥ 1`, satisfied by every
matrix `buildDistanceMatrix` produces) and every `k` with `1 ≤ k ≤ n`,
`cutDendrogram` returns exactly `min k n` member-index lists that are
pairwise disjoint and whose union is `{0, …, n−1}`: their concatenation is a
permutation of `range n`, so each original item index occurs in exactly one
returned cluster. -/
theorem cutDendrogram_partition (dm : List (List ℚ)) (hdm : ∀ i j, 0 ≤ dmGet dm i j)
    (k : ℕ) (hk : 1 ≤ k) (hkn : k ≤ dm.length) :
    (cutDendrogram (agglomerativeCluster dm) k).length = min k dm.length ∧
    ((cutDendrogram (agglomerativeCluster dm) k).flatten).Perm
      (List.range dm.length) := by
  have hn : 1 ≤ dm.length := le_trans hk hkn
  obtain ⟨root, hroot, hmem, hhts⟩ := agglomerativeCluster_spec dm hdm hn
  rw [hroot]
  unfold cutDendrogram
  dsimp only
  rw [if_neg (by omega : ¬ k = 0)]
  have hml : root.members.length = dm.length := by
    rw [hmem.length_eq, List.length_range]
  have hci : countInternal root = dm.length - 1 := by
    have := countInternal_add_one root
    omega
  have hmeq : min (k - 1) (countInternal root) = k - 1 := by
    rw [hci]
    omega
  rw [hmeq]
  have hcount : ([root] : List ClusterNode).length + (k - 1) ≤
      (([root] : List ClusterNode).flatMap ClusterNode.members).length := by
    simp only [List.length_cons, List.length_nil, List.flatMap_cons, List.flatMap_nil,
      List.append_nil, hml]
    omega
  obtain ⟨hlen, hperm, -⟩ := cutLoop_spec (k - 1) [root]
    (by
      intro t ht
      rw [List.mem_singleton] at ht
      subst ht
      exact hhts) hcount
  constructor
  · rw [List.length_map, hlen]
    simp only [List.length_cons, List.length_nil]
    omega
  · rw [← List.flatMap_def]
    refine hperm.trans ?_
    simp only [List.flatMap_cons, List.flatMap_nil, List.append_nil]
    exact hmem

theorem buildDistanceMatrix_entry_nonneg (fs : List FacetSet) :
    ∀ row ∈ buildDistanceMatrix fs, ∀ v ∈ row, 0 ≤ v := by
  intro row hrow v hv
  unfold buildDistanceMatrix at hrow
  simp only [List.mem_map, List.mem_range] at hrow
  obtain ⟨i, -, rfl⟩ := hrow
  simp only [List.mem_map, List.mem_range] at hv
  obtain ⟨j, -, rfl⟩ := hv
  split
  · norm_num
  · split
    · exact jaccardDistance_nonneg _ _
    · exact jaccardDistance_nonneg _ _

theorem dmGet_buildDistanceMatrix_nonneg (fs : List FacetSet) :
    ∀ i j, 0 ≤ dmGet (buildDistanceMatrix fs) i j := by
  intro i j
  unfold dmGet
  simp only [List.getD_eq_getElem?_getD]
  rcases hrow : (buildDistanceMatrix fs)[i]? with - | row
  · simp
  · have hrowmem := List.getElem?_mem hrow
    simp only [Option.getD_some]
    rcases hval : row[j]? with - | v
    · simp
    · have hvmem := List.getElem?_mem hval
      simp only [Option.getD_some]
      exact buildDistanceMatrix_entry_nonneg fs row hrowmem v hvmem

/-- Witness for `cutDendrogram_partition`: a concrete 3-item matrix cut at
`k = 2`. -/
theorem cutDendrogram_partition_witness :
    ((∀ i j, 0 ≤ dmGet (buildDistanceMatrix [({"a:x"} : FacetSet), {"a:x"}, {"b:y"}]) i j) ∧
      1 ≤ 2 ∧
      2 ≤ (buildDistanceMatrix [({"a:x"} : FacetSet), {"a:x"}, {"b:y"}]).length) ∧
    ((cutDendrogram
        (agglomerativeCluster (buildDistanceMatrix [({"a:x"} : FacetSet), {"a:x"}, {"b:y"}]))
        2).length =
      min 2 (buildDistanceMatrix [({"a:x"} : FacetSet), {"a:x"}, {"b:y"}]).length ∧
     ((cutDendrogram
        (agglomerativeCluster (buildDistanceMatrix [({"a:x"} : FacetSet), {"a:x"}, {"b:y"}]))
        2).flatten).Perm
      (List.range (buildDistanceMatrix [({"a:x"} : FacetSet), {"a:x"}, {"b:y"}]).length)) := by
  refine ⟨⟨dmGet_buildDistanceMatrix_nonneg _, by norm_num, by decide⟩, ?_⟩
  exact cutDendrogram_partition _ (dmGet_buildDistanceMatrix_nonneg _) 2 (by norm_num) (by decide)

/-! ## similarity.go: silhouette score and k selection -/

/-- Go `groupByCluster`: indices grouped by cluster assignment; Go appends
index `i` to `clusters[assignments[i]]` for `0 ≤ assignments[i] < k`, which
yields, for each cluster id, the matching indices in increasing order. -/
def groupByCluster (assignments : List ℤ) (k : ℕ) : List (List ℕ) :=
  (List.range k).map (fun (c : ℕ) =>
    assignments.enum.filterMap (fun p => if p.2 = (c : ℤ) then some p.1 else none))

/-- Go `computeIntraClusterDistance`: average distance from point `i` to the
other members of its cluster.  Every caller guarantees at least two members,
so the divisor is nonzero. -/
def computeIntraClusterDistance (i : ℕ) (members : List ℕ) (dm : List (List ℚ)) : ℚ :=
  ((members.filter (fun j => j ≠ i)).map (fun j => dmGet dm i j)).sum /
    ((members.length - 1 : ℕ) : ℚ)

/-- Go `computeNearestClusterDistance`: minimum over the other nonempty
clusters of the average distance from `i` to that cluster.  Go starts from
`+Inf` and returns it when there is no other nonempty cluster; `none` models
that. -/
def computeNearestClusterDistance (i ownCluster : ℕ) (clusters : List (List ℕ))
    (dm : List (List ℚ)) (k : ℕ) : Option ℚ :=
  (List.range k).foldl (fun minDist oc =>
    if oc = ownCluster then minDist
    else if clusters.getD oc [] = [] then minDist
    else
      let mems := clusters.getD oc []
      let avg := (mems.map (fun j => dmGet dm i j)).sum / (mems.length : ℚ)
      match minDist with
      | none => some avg
      | some b => if avg < b then some avg else minDist) none

/-- Go `computePointSilhouette`: the silhouette coefficient of point `i`, or
`none` (Go: `(0, false)`) for out-of-range assignments, singleton clusters,
no other nonempty cluster, or `max(a,b) = 0`. -/
def computePointSilhouette (i : ℕ) (cluster : ℤ) (clusters : List (List ℕ))
    (dm : List (List ℚ)) (k : ℕ) : Option ℚ :=
  if cluster < 0 ∨ (k : ℤ) ≤ cluster then none
  else if (clusters.getD cluster.toNat []).length ≤ 1 then none
  else
    let clusterMembers := clusters.getD cluster.toNat []
    let a := computeIntraClusterDistance i clusterMembers dm
    match computeNearestClusterDistance i cluster.toNat clusters dm k with
    | none => none
    | some b => if max a b = 0 then none else some ((b - a) / max a b)

/-- Go `silhouetteScore`: mean of the valid per-point silhouettes, `0` when
`n < 2`, `k < 2`, or no point yields a valid score. -/
def silhouetteScore (dm : List (List ℚ)) (assignments : List ℤ) (k : ℕ) : ℚ :=
  if assignments.length < 2 ∨ k < 2 then 0
  else
    let clusters := groupByCluster assignments k
    let valids := assignments.enum.filterMap
      (fun p => computePointSilhouette p.1 p.2 clusters dm k)
    if valids.length = 0 then 0
    else valids.sum / (valids.length : ℚ)

/-- Go `clustersToAssignments`: an array of `n` assignments, `-1` for
unassigned, set to the cluster index for every member index. -/
def clustersToAssignments (clusters : List (List ℕ)) (n : ℕ) : List ℤ :=
  clusters.enum.foldl (fun assignments p =>
    p.2.foldl (fun acc itemIdx => acc.set itemIdx (p.1 : ℤ)) assignments)
    (List.replicate n (-1 : ℤ))

/-- The `maxK` computation in Go `selectOptimalK`: `min(6, n−1)` clamped
below to 2 (Go computes `n-1` in `int`; for `n = 0` the value `-1` is also
clamped to 2, matching truncated subtraction here). -/
def maxKFor (n : ℕ) : ℕ := max (min 6 (n - 1)) 2

/-- One iteration of the `k` loop in Go `selectOptimalK`.  State:
`(bestK, bestScore, bestAssignments, silhouetteScores)`, where
`bestScore = none` models Go's initial `-Inf` (any computed score beats it). -/
def sokStep (dm : List (List ℚ)) (root : Option ClusterNode) (n : ℕ)
    (st : ℕ × Option ℚ × List ℤ × List (ℕ × ℚ)) (k : ℕ) :
    ℕ × Option ℚ × List ℤ × List (ℕ × ℚ) :=
  if (cutDendrogram root k).length < k then st
  else
    let assignments := clustersToAssignments (cutDendrogram root k) n
    let score := silhouetteScore dm assignments k
    match st.2.1 with
    | none => (k, some score, assignments, st.2.2.2 ++ [(k, score)])
    | some bestScore =>
      if bestScore < score then (k, some score, assignments, st.2.2.2 ++ [(k, score)])
      else (st.1, st.2.1, st.2.2.1, st.2.2.2 ++ [(k, score)])

/-- Go `selectOptimalK`: build the dendrogram once, evaluate
`k = 2 .. maxK`, and keep the `k` with the strictly highest silhouette
score.  Returns the final loop state
`(bestK, bestScore, bestAssignments, silhouetteScores)`; Go returns the
first, third and fourth components (`facetSets` is an unused parameter in
the Go signature as well). -/
def selectOptimalK (dm : List (List ℚ)) (facetSets : List FacetSet) :
    ℕ × Option ℚ × List ℤ × List (ℕ × ℚ) :=
  (List.range' 2 (maxKFor dm.length - 1)).foldl
    (sokStep dm (agglomerativeCluster dm) dm.length)
    (2, none, [], [])

/-- The silhouette score Go `selectOptimalK` assigns to a candidate `k`. -/
def sokScore (dm : List (List ℚ)) (root : Option ClusterNode) (n : ℕ) (k : ℕ) : ℚ :=
  silhouetteScore dm (clustersToAssignments (cutDendrogram root k) n) k

/-- `k` is not skipped by Go `selectOptimalK`: the cut yields at least `k`
clusters. -/
def sokFeasible (root : Option ClusterNode) (k : ℕ) : Prop :=
  ¬ (cutDendrogram root k).length < k

theorem sokFold_spec (dm : List (List ℚ)) (root : Option ClusterNode) (n : ℕ) :
    ∀ (ks : List ℕ) (st fin : ℕ × Option ℚ × List ℤ × List (ℕ × ℚ)),
      fin = ks.foldl (sokStep dm root n) st →
      ks.Pairwise (· < ·) →
      (∀ r ∈ ks, st.2.1.isSome = true → st.1 < r) →
      (∀ s, st.2.1 = some s → sokFeasible root st.1 ∧ s = sokScore dm root n st.1) →
      (fin.2.1 = none → fin.1 = st.1 ∧ st.2.1 = none ∧
        ∀ k ∈ ks, ¬ sokFeasible root k) ∧
      (∀ s, fin.2.1 = some s → sokFeasible root fin.1 ∧ s = sokScore dm root n fin.1) ∧
      (∀ k ∈ ks, sokFeasible root k → ∀ s, fin.2.1 = some s →
        sokScore dm root n k ≤ s ∧ (k < fin.1 → sokScore dm root n k < s)) ∧
      (∀ s0, st.2.1 = some s0 → ∃ s, fin.2.1 = some s ∧ s0 ≤ s ∧
        (s0 < s ∨ fin.1 = st.1)) ∧
      (fin.1 = st.1 ∨ fin.1 ∈ ks) := by
  intro ks
  induction ks with
  | nil =>
    intro st fin hfin _ _ hsome
    rw [List.foldl_nil] at hfin
    subst hfin
    refine ⟨fun h => ⟨rfl, h, by simp⟩, hsome, by simp, ?_, Or.inl rfl⟩
    intro s0 hs0
    exact ⟨s0, hs0, le_refl _, Or.inr rfl⟩
  | cons q rest ih =>
    intro st fin hfin hsort hgt hsome
    obtain ⟨bK, bS, bA, bSc⟩ := st
    rw [List.foldl_cons] at hfin
    have hsort' : rest.Pairwise (· < ·) := hsort.tail
    have hqlt : ∀ r ∈ rest, q < r := fun r hr => (List.pairwise_cons.mp hsort).1 r hr
    by_cases hfeas : (cutDendrogram root q).length < q
    · -- case (i): q is skipped, state unchanged
      have hstep : sokStep dm root n (bK, bS, bA, bSc) q = (bK, bS, bA, bSc) := by
        unfold sokStep
        rw [if_pos hfeas]
      rw [hstep] at hfin
      obtain ⟨c1, c2, c3, c4, c5⟩ := ih (bK, bS, bA, bSc) fin hfin hsort'
        (fun r hr h => hgt r (by simp [hr]) h) hsome
      refine ⟨?_, c2, ?_, c4, ?_⟩
      · intro h
        obtain ⟨e1, e2, e3⟩ := c1 h
        refine ⟨e1, e2, ?_⟩
        intro k hk
        rcases List.mem_cons.mp hk with rfl | hk'
        · exact fun hh => hh hfeas
        · exact e3 k hk'
      · intro k hk hfk s hs
        rcases List.mem_cons.mp hk with rfl | hk'
        · exact absurd hfeas hfk
        · exact c3 k hk' hfk s hs
      · rcases c5 with h | h
        · exact Or.inl h
        · exact Or.inr (by simp [h])
    · -- q is evaluated
      cases hbS : bS with
      | none =>
        -- case (ii): first feasible k, becomes the best
        subst hbS
        have hstep : sokStep dm root n (bK, none, bA, bSc) q =
            (q, some (sokScore dm root n q),
              clustersToAssignments (cutDendrogram root q) n,
              bSc ++ [(q, sokScore dm root n q)]) := by
          unfold sokStep
          rw [if_neg hfeas]
          rfl
        rw [hstep] at hfin
        obtain ⟨c1, c2, c3, c4, c5⟩ := ih _ fin hfin hsort'
          (fun r hr _ => hqlt r hr)
          (fun s hs => by
            have hx : sokScore dm root n q = s := by simpa using hs
            subst hx
            exact ⟨hfeas, rfl⟩)
        obtain ⟨s1, hs1, hle1, hor1⟩ := c4 (sokScore dm root n q) rfl
        refine ⟨?_, c2, ?_, ?_, ?_⟩
        · intro h
          rw [h] at hs1
          exact absurd hs1 (by simp)
        · intro k hk hfk s hs
          rcases List.mem_cons.mp hk with rfl | hk'
          · rw [hs] at hs1
            obtain rfl : s1 = s := by simpa using hs1.symm
            refine ⟨hle1, ?_⟩
            intro hlt
            rcases hor1 with h | h
            · exact h
            · dsimp only at h
              omega
          · exact c3 k hk' hfk s hs
        · intro s0 hs0
          exact absurd hs0 (by simp)
        · rcases c5 with h | h
          · exact Or.inr (by simp [h])
          · exact Or.inr (by simp [h])
      | some s0 =>
        subst hbS
        obtain ⟨hfs0, hscs0⟩ := hsome s0 rfl
        dsimp only at hfs0 hscs0
        by_cases himp : s0 < sokScore dm root n q
        · -- case (iii): strict improvement, q becomes the best
          have himp' : s0 <
              silhouetteScore dm (clustersToAssignments (cutDendrogram root q) n) q := himp
          have hstep : sokStep dm root n (bK, some s0, bA, bSc) q =
              (q, some (sokScore dm root n q),
                clustersToAssignments (cutDendrogram root q) n,
                bSc ++ [(q, sokScore dm root n q)]) := by
            unfold sokStep
            rw [if_neg hfeas]
            dsimp only
            rw [if_pos himp']
            rfl
          rw [hstep] at hfin
          obtain ⟨c1, c2, c3, c4, c5⟩ := ih _ fin hfin hsort'
            (fun r hr _ => hqlt r hr)
            (fun s hs => by
              have hx : sokScore dm root n q = s := by simpa using hs
              subst hx
              exact ⟨hfeas, rfl⟩)
          obtain ⟨s1, hs1, hle1, hor1⟩ := c4 (sokScore dm root n q) rfl
          refine ⟨?_, c2, ?_, ?_, ?_⟩
          · intro h
            rw [h] at hs1
            exact absurd hs1 (by simp)
          · intro k hk hfk s hs
            rcases List.mem_cons.mp hk with rfl | hk'
            · rw [hs] at hs1
              obtain rfl : s1 = s := by simpa using hs1.symm
              refine ⟨hle1, ?_⟩
              intro hlt
              rcases hor1 with h | h
              · exact h
              · dsimp only at h
                omega
            · exact c3 k hk' hfk s hs
          · intro s0' hs0'
            obtain rfl : s0 = s0' := by simpa using hs0'
            exact ⟨s1, hs1, le_trans (le_of_lt himp) hle1,
              Or.inl (lt_of_lt_of_le himp hle1)⟩
          · rcases c5 with h | h
            · exact Or.inr (by simp [h])
            · exact Or.inr (by simp [h])
        · -- case (iv): no strict improvement, best unchanged
          have himp' : ¬ s0 <
              silhouetteScore dm (clustersToAssignments (cutDendrogram root q) n) q := himp
          have hstep : sokStep dm root n (bK, some s0, bA, bSc) q =
              (bK, some s0, bA,
                bSc ++ [(q, silhouetteScore dm
                  (clustersToAssignments (cutDendrogram root q) n) q)]) := by
            unfold sokStep
            rw [if_neg hfeas]
            dsimp only
            rw [if_neg himp']
          rw [hstep] at hfin
          have hgt' : ∀ r ∈ rest, bK < r := fun r hr => hgt r (by simp [hr]) (by simp)
          obtain ⟨c1, c2, c3, c4, c5⟩ := ih _ fin hfin hsort'
            (fun r hr _ => hgt' r hr)
            (fun s hs => by
              obtain rfl : s0 = s := by simpa using hs
              exact ⟨hfs0, hscs0⟩)
          obtain ⟨s1, hs1, hle1, hor1⟩ := c4 s0 rfl
          have hbKq : bK < q := hgt q (by simp) (by simp)
          refine ⟨?_, c2, ?_, ?_, ?_⟩
          · intro h
            rw [h] at hs1
            exact absurd hs1 (by simp)
          · intro k hk hfk s hs
            rcases List.mem_cons.mp hk with rfl | hk'
            · rw [hs] at hs1
              obtain rfl : s1 = s := by simpa using hs1.symm
              have hqle : sokScore dm root n k ≤ s0 := le_of_not_lt himp
              refine ⟨le_trans hqle hle1, ?_⟩
              intro hlt
              rcases hor1 with h | h
              · exact lt_of_le_of_lt hqle h
              · dsimp only at h
                omega
            · exact c3 k hk' hfk s hs
          · intro s0' hs0'
            obtain rfl : s0 = s0' := by simpa using hs0'
            exact ⟨s1, hs1, hle1, hor1⟩
          · rcases c5 with h | h
            · exact Or.inl (by simpa using h)
            · exact Or.inr (by simp [h])

/-- Claim C5: `selectOptimalK` evaluates `k` from 2 up to `min(6, n−1)`,
skips any `k` for which cutting the dendrogram yields fewer than `k`
clusters, scores each resulting partition with the silhouette score, and
returns the first (smallest) `k` attaining the strictly highest score;
whenever `n ≥ 3`, the chosen `k` lies in `[2, min(6, n−1)]`. -/
theorem selectOptimalK_spec (dm : List (List ℚ)) (fs : List FacetSet)
    (hn : 3 ≤ dm.length) :
    2 ≤ (selectOptimalK dm fs).1 ∧
    (selectOptimalK dm fs).1 ≤ min 6 (dm.length - 1) ∧
    ((∃ k, 2 ≤ k ∧ k ≤ min 6 (dm.length - 1) ∧ sokFeasible (agglomerativeCluster dm) k) →
      sokFeasible (agglomerativeCluster dm) (selectOptimalK dm fs).1 ∧
      (∀ k, 2 ≤ k → k ≤ min 6 (dm.length - 1) →
        sokFeasible (agglomerativeCluster dm) k →
        sokScore dm (agglomerativeCluster dm) dm.length k ≤
          sokScore dm (agglomerativeCluster dm) dm.length (selectOptimalK dm fs).1 ∧
        (k < (selectOptimalK dm fs).1 →
          sokScore dm (agglomerativeCluster dm) dm.length k <
            sokScore dm (agglomerativeCluster dm) dm.length (selectOptimalK dm fs).1))) := by
  have hmaxk : maxKFor dm.length = min 6 (dm.length - 1) := by
    unfold maxKFor
    omega
  have hmem : ∀ k, k ∈ List.range' 2 (maxKFor dm.length - 1) ↔
      2 ≤ k ∧ k ≤ min 6 (dm.length - 1) := by
    intro k
    rw [List.mem_range'_1, hmaxk]
    omega
  obtain ⟨c1, c2, c3, c4, c5⟩ := sokFold_spec dm (agglomerativeCluster dm) dm.length
    (List.range' 2 (maxKFor dm.length - 1)) (2, none, [], []) (selectOptimalK dm fs)
    rfl (List.pairwise_lt_range' 2 _) (by simp) (by simp)
  refine ⟨?_, ?_, ?_⟩
  · rcases c5 with h | h
    · omega
    · exact ((hmem _).mp h).1
  · rcases c5 with h | h
    · rw [h]
      omega
    · exact ((hmem _).mp h).2
  · rintro ⟨k0, hk0a, hk0b, hk0f⟩
    cases hfs : (selectOptimalK dm fs).2.1 with
    | none =>
      obtain ⟨-, -, hallinf⟩ := c1 hfs
      exact absurd hk0f (hallinf k0 ((hmem k0).mpr ⟨hk0a, hk0b⟩))
    | some s =>
      obtain ⟨hf, hsc⟩ := c2 s hfs
      refine ⟨hf, ?_⟩
      intro k hka hkb hkf
      obtain ⟨hle, hlt⟩ := c3 k ((hmem k).mpr ⟨hka, hkb⟩) hkf s hfs
      rw [hsc] at hle hlt
      exact ⟨hle, hlt⟩

/-- Witness for `selectOptimalK_spec` at a concrete three-item input. -/
theorem selectOptimalK_spec_witness :
    (3 ≤ (buildDistanceMatrix [({"a:x"} : FacetSet), {"a:x"}, {"b:y"}]).length ∧
      2 ≤ 2 ∧ 2 ≤ min 6 ((buildDistanceMatrix [({"a:x"} : FacetSet), {"a:x"}, {"b:y"}]).length - 1) ∧
      sokFeasible (agglomerativeCluster (buildDistanceMatrix [({"a:x"} : FacetSet), {"a:x"}, {"b:y"}])) 2) ∧
    2 ≤ (selectOptimalK (buildDistanceMatrix [({"a:x"} : FacetSet), {"a:x"}, {"b:y"}])
        [({"a:x"} : FacetSet), {"a:x"}, {"b:y"}]).1 ∧
    (selectOptimalK (buildDistanceMatrix [({"a:x"} : FacetSet), {"a:x"}, {"b:y"}])
        [({"a:x"} : FacetSet), {"a:x"}, {"b:y"}]).1 ≤
      min 6 ((buildDistanceMatrix [({"a:x"} : FacetSet), {"a:x"}, {"b:y"}]).length - 1) ∧
    sokFeasible (agglomerativeCluster (buildDistanceMatrix [({"a:x"} : FacetSet), {"a:x"}, {"b:y"}]))
      (selectOptimalK (buildDistanceMatrix [({"a:x"} : FacetSet), {"a:x"}, {"b:y"}])
        [({"a:x"} : FacetSet), {"a:x"}, {"b:y"}]).1 := by
  have h := selectOptimalK_spec (buildDistanceMatrix [({"a:x"} : FacetSet), {"a:x"}, {"b:y"}])
    [({"a:x"} : FacetSet), {"a:x"}, {"b:y"}] (by decide)
  have hfeas : sokFeasible
      (agglomerativeCluster (buildDistanceMatrix [({"a:x"} : FacetSet), {"a:x"}, {"b:y"}])) 2 := by
    have := cutDendrogram_partition (buildDistanceMatrix [({"a:x"} : FacetSet), {"a:x"}, {"b:y"}])
      (dmGet_buildDistanceMatrix_nonneg _) 2 (by norm_num) (by decide)
    unfold sokFeasible
    omega
  refine ⟨⟨by decide, by norm_num, by decide, hfeas⟩, h.1, h.2.1, ?_⟩
  exact (h.2.2 ⟨2, by norm_num, by decide, hfeas⟩).1

/-! ## Decision lists and greedy rule fitting -/

/-- Go `Clause`: a facet name with one or more values (OR within the
clause). -/
structure Clause where
  facetName : String
  values : List String
deriving Repr, DecidableEq

/-- Go `DecisionList`: a conjunction of clauses. -/
structure DecisionList where
  clauses : List Clause
deriving Repr, DecidableEq

/-- Go `RuleQuality`. -/
structure RuleQuality where
  Precision : ℚ
  Recall : ℚ
  F1 : ℚ
deriving Repr, DecidableEq

/-- Go `MaxClausesInRule`. -/
def MaxClausesInRule : ℕ := 3

/-- Go `DecisionList.ToAlgoliaFilter`: outer list is AND, inner lists are OR;
`nil` for an empty rule (modelled as `[]`), clauses without values are
skipped. -/
def DecisionList.ToAlgoliaFilter (d : DecisionList) : List (List String) :=
  if d.clauses = [] then []
  else d.clauses.filterMap (fun c =>
    if c.values = [] then none
    else some (c.values.map (fun v => c.facetName ++ ":" ++ v)))

/-- Go `DecisionList.Matches`: every clause must have at least one value
whose `"facetName:value"` token is in the facet set; an empty clause list
matches everything. -/
def DecisionList.Matches (d : DecisionList) (fs : FacetSet) : Bool :=
  d.clauses.all (fun c => c.values.any (fun v => decide ((c.facetName ++ ":" ++ v) ∈ fs)))

/-- Go `joinStrings`. -/
def joinStrings (strs : List String) (sep : String) : String :=
  match strs with
  | [] => ""
  | s :: rest => rest.foldl (fun result x => result ++ sep ++ x) s

/-- Go `DecisionList.String()`: single-value clauses render bare,
multi-value clauses render OR-wrapped in parentheses, clauses joined with
`" AND "`. -/
def DecisionList.render (d : DecisionList) : String :=
  if d.clauses = [] then "(empty rule)"
  else
    joinStrings (d.clauses.map (fun c =>
      match c.values with
      | [v] => c.facetName ++ ":" ++ v
      | _ => "(" ++ joinStrings (c.values.map (fun v => c.facetName ++ ":" ++ v)) " OR " ++ ")"))
      " AND "

/-- Split a character list at the first colon. -/
def splitAtColon : List Char → Option (List Char × List Char)
  | [] => none
  | c :: rest =>
    if c = ':' then some ([], rest)
    else (splitAtColon rest).map (fun p => (c :: p.1, p.2))

/-- Go `parseFacetKey`: split a `"facetName:facetValue"` token at the first
colon; a token without a colon yields `(token, "")`. -/
def parseFacetKey (key : String) : String × String :=
  match splitAtColon key.toList with
  | none => (key, "")
  | some p => (String.mk p.1, String.mk p.2)

/-- The `(positiveCount, totalCount)` entry of Go `collectFacetStats` for one
`(facetName, facetValue)` pair: every token of an item's facet set that
parses to the pair contributes one `totalCount`, plus one `positiveCount`
when the item's index is positive.  (Go stores these counts in a nested map;
tokens parsing to an empty facet name are skipped when the map is built, so
the map's domain never contains an empty name.) -/
def statCounts (positiveSet : List ℕ) (allFacetSets : List FacetSet)
    (fn fv : String) : ℕ × ℕ :=
  (((allFacetSets.enum.filter (fun p => p.1 ∈ positiveSet)).map
      (fun p => (p.2.filter (fun key => parseFacetKey key = (fn, fv))).card)).sum,
   (allFacetSets.map
      (fun fs => (fs.filter (fun key => parseFacetKey key = (fn, fv))).card)).sum)

/-- Go `selectValuesWithLift`: the values of one facet whose lift
`P(value|positive) / P(value|all)` is at least `MinLiftThreshold = 1.2`
(modelled as the exact rational `6/5`; the stored `float64` constant is
marginally below `6/5`, and no proved statement depends on the boundary).
Go iterates the facet's value map in an unspecified order; the enumeration
`vals` is a parameter. -/
def selectValuesWithLift (fn : String) (vals : List String)
    (positiveSet : List ℕ) (allFacetSets : List FacetSet)
    (totalPositives totalItems : ℕ) : List String :=
  vals.filter (fun v =>
    let st := statCounts positiveSet allFacetSets fn v
    if st.2 = 0 ∨ st.1 = 0 then false
    else
      let pGivenPos := (st.1 : ℚ) / (totalPositives : ℚ)
      let pValue := (st.2 : ℚ) / (totalItems : ℚ)
      if 0 < pValue then decide ((6/5 : ℚ) ≤ pGivenPos / pValue)
      else false)

/-- Go `computeRecall`: fraction of positives matching the rule (0 for an
empty positive list). -/
def computeRecall (rule : DecisionList) (positiveIndices : List ℕ)
    (allFacetSets : List FacetSet) : ℚ :=
  if positiveIndices = [] then 0
  else ((positiveIndices.filter (fun idx =>
    rule.Matches (allFacetSets.getD idx ∅))).length : ℚ) / (positiveIndices.length : ℚ)

/-- Go `computePrecision`: fraction of all matching items that are positive
(0 when nothing matches). -/
def computePrecision (rule : DecisionList) (positiveIndices : List ℕ)
    (allFacetSets : List FacetSet) : ℚ :=
  if (allFacetSets.enum.filter (fun p => rule.Matches p.2)).length = 0 then 0
  else (((allFacetSets.enum.filter (fun p => rule.Matches p.2)).filter
      (fun p => p.1 ∈ positiveIndices)).length : ℚ) /
    ((allFacetSets.enum.filter (fun p => rule.Matches p.2)).length : ℚ)

/-- Go `computeRuleQuality`: precision, recall and their harmonic mean (F1 is
0 when precision + recall is 0). -/
def computeRuleQuality (rule : DecisionList) (positiveIndices : List ℕ)
    (allFacetSets : List FacetSet) : RuleQuality :=
  let p := computePrecision rule positiveIndices allFacetSets
  let r := computeRecall rule positiveIndices allFacetSets
  ⟨p, r, if 0 < p + r then 2 * p * r / (p + r) else 0⟩

/-- Go `shouldSelectClause`: the acceptance test for a candidate clause.
First clause: maximize recall.  Subsequent clauses: the recall may drop by at
most `0.1` (modelled as the exact rational `1/10`), the resulting recall must
be at least `0.5`, precision must strictly improve, and among acceptable
candidates the one with strictly higher recall wins, ties broken by strictly
higher recall gain. -/
def shouldSelectClause (numClauses : ℕ) (newRecall recallGain : ℚ)
    (candidateRule currentRule : DecisionList) (positiveIndices : List ℕ)
    (allFacetSets : List FacetSet) (bestNewRecall bestRecallGain : ℚ) : Bool :=
  if numClauses = 0 then
    decide (bestNewRecall < newRecall)
  else if (-1/10 : ℚ) ≤ recallGain ∧ (1/2 : ℚ) ≤ newRecall then
    if computePrecision currentRule positiveIndices allFacetSets <
        computePrecision candidateRule positiveIndices allFacetSets then
      decide (bestNewRecall < newRecall ∨
        (newRecall = bestNewRecall ∧ bestRecallGain < recallGain))
    else false
  else false

/-- One candidate evaluation of Go `findBestClause`.  State:
`(best clause and facet (none while Go's bestFacet is ""), bestRecallGain,
bestNewRecall)`. -/
def fbcStep (currentClauses : List Clause) (usedFacets : List String)
    (positiveIndices : List ℕ) (allFacetSets : List FacetSet)
    (totalPositives totalItems : ℕ)
    (best : Option (Clause × String) × ℚ × ℚ) (p : String × List String) :
    Option (Clause × String) × ℚ × ℚ :=
  if p.1 ∈ usedFacets then best
  else
    let selectedValues := selectValuesWithLift p.1 p.2 positiveIndices allFacetSets
      totalPositives totalItems
    if selectedValues = [] then best
    else
      let candidateClause : Clause := ⟨p.1, selectedValues⟩
      let candidateRule : DecisionList := ⟨currentClauses ++ [candidateClause]⟩
      let newRecall := computeRecall candidateRule positiveIndices allFacetSets
      let recallGain := newRecall - computeRecall ⟨currentClauses⟩ positiveIndices allFacetSets
      if shouldSelectClause currentClauses.length newRecall recallGain candidateRule
          ⟨currentClauses⟩ positiveIndices allFacetSets best.2.2 best.2.1 then
        (some (candidateClause, p.1), recallGain, newRecall)
      else best

/-- Go `findBestClause`: scan the facet statistics (in the enumeration order
`statsOrder`) for the best next clause. -/
def findBestClause (currentClauses : List Clause)
    (statsOrder : List (String × List String)) (usedFacets : List String)
    (positiveIndices : List ℕ) (allFacetSets : List FacetSet)
    (totalPositives totalItems : ℕ) : Option (Clause × String) × ℚ × ℚ :=
  statsOrder.foldl
    (fbcStep currentClauses usedFacets positiveIndices allFacetSets totalPositives totalItems)
    (none, 0, 0)

/-- The loop of Go `selectClausesGreedy` (`for len(clauses) <
MaxClausesInRule`), with the remaining clause budget as fuel. -/
def scgLoop (statsOrder : List (String × List String)) (positiveIndices : List ℕ)
    (allFacetSets : List FacetSet) (totalPositives totalItems : ℕ) :
    ℕ → List Clause → List String → List Clause
  | 0, clauses, _ => clauses
  | fuel + 1, clauses, usedFacets =>
    match (findBestClause clauses statsOrder usedFacets positiveIndices allFacetSets
        totalPositives totalItems).1 with
    | none => clauses
    | some (clause, facet) =>
      scgLoop statsOrder positiveIndices allFacetSets totalPositives totalItems fuel
        (clauses ++ [clause]) (usedFacets ++ [facet])

/-- Go `selectClausesGreedy`. -/
def selectClausesGreedy (statsOrder : List (String × List String))
    (positiveIndices : List ℕ) (allFacetSets : List FacetSet)
    (totalPositives totalItems : ℕ) : List Clause :=
  scgLoop statsOrder positiveIndices allFacetSets totalPositives totalItems
    MaxClausesInRule [] []

/-- An enumeration of the facet statistics domain derived from the items'
token lists: the `(facetName, facetValue)` pairs occurring on any item
(tokens with an empty facet name are skipped, as in Go `collectFacetStats`),
grouped by name.  Go iterates its statistics maps in an unspecified order;
the entry points of this development fix the deterministic enumeration
derived from the input token lists (one realizable iteration order), and
theorems about order (in)dependence quantify over the enumeration. -/
def statsOrderOf (tokenLists : List (List String)) : List (String × List String) :=
  ((((tokenLists.flatten.map parseFacetKey).filter
      (fun p => p.1 ≠ "")).dedup.map Prod.fst).dedup).map
    (fun n => (n, (((tokenLists.flatten.map parseFacetKey).filter
      (fun p => p.1 ≠ "")).dedup.filter (fun p => p.1 = n)).map Prod.snd))

/-- Go `fitDecisionList`, parameterized by the statistics enumeration
order. -/
def fitDecisionListWith (statsOrder : List (String × List String))
    (positiveIndices : List ℕ) (allFacetSets : List FacetSet) :
    DecisionList × RuleQuality :=
  if positiveIndices = [] ∨ allFacetSets = [] then (⟨[]⟩, ⟨0, 0, 0⟩)
  else
    let clauses := selectClausesGreedy statsOrder positiveIndices allFacetSets
      positiveIndices.length allFacetSets.length
    (⟨clauses⟩, computeRuleQuality ⟨clauses⟩ positiveIndices allFacetSets)

/-- Go `fitDecisionList` over the items' token lists (each item's facet set
as a duplicate-free list of tokens, standing for the keys of the Go
`FacetSet` map in one iteration order). -/
def fitDecisionList (positiveIndices : List ℕ) (tokenLists : List (List String)) :
    DecisionList × RuleQuality :=
  fitDecisionListWith (statsOrderOf tokenLists) positiveIndices
    (tokenLists.map List.toFinset)

/-! ## cluster.go: cluster assembly, rule fitting and reassignment -/

/-- Go `minClusterSize`: clusters smaller than this go to "Other". -/
def minClusterSize : ℕ := 2

/-- Go `ClusterGroup`.  Items are represented by their input index (the Go
struct stores the opaque `Result` values; item ids are unique, so the index
determines the item).  The display-only statistics fields (`TopFacets`,
`Stats`) are not modelled: no claim concerns them. -/
structure ClusterGroup where
  name : String
  items : List ℕ
  rule : Option DecisionList := none
  ruleQuality : Option RuleQuality := none
deriving Repr, DecidableEq, Inhabited

/-- Go `ClusterResult`. -/
structure ClusterResult where
  Groups : List ClusterGroup
  OtherGroup : List ℕ
  ClusterCount : ℕ
deriving Repr, DecidableEq

/-- Go `partitionByCluster`: group item indices by cluster id (Go appends
index `i` to `clusterItems[assignments[i]]` in index order; out-of-range ids
go to "Other"), then move every nonempty cluster smaller than
`minClusterSize` to "Other" (appending its indices, in cluster order). -/
def partitionByCluster (assignments : List ℤ) (k : ℕ) : List (List ℕ) × List ℕ :=
  let clusterItems := (List.range k).map (fun (c : ℕ) =>
    assignments.enum.filterMap (fun p => if p.2 = (c : ℤ) then some p.1 else none))
  ((clusterItems.map (fun l => if l ≠ [] ∧ l.length < minClusterSize then [] else l)),
   (assignments.enum.filterMap
      (fun p => if p.2 < 0 ∨ (k : ℤ) ≤ p.2 then some p.1 else none)) ++
     (clusterItems.filter (fun l => l ≠ [] ∧ l.length < minClusterSize)).flatten)

/-- Go `buildClusterGroups`: one `ClusterGroup` per nonempty cluster with
fallback name `"Cluster <1-based index>"`; the evicted and unassigned items
form "Other".  (The Go function also computes the display-only top-facet
statistics, which are not modelled.) -/
def buildClusterGroups (assignments : List ℤ) (k : ℕ) : List ClusterGroup × List ℕ :=
  ((partitionByCluster assignments k).1.enum.filterMap (fun p =>
    if p.2 = [] then none
    else some { name := "Cluster " ++ toString (p.1 + 1), items := p.2 }),
   (partitionByCluster assignments k).2)

/-- Go `fitRulesForClusters`: fit a decision list per group from its original
membership; the group's name becomes the rule's rendering unless that is
`"(empty rule)"`.  (Go recovers each item's index through an id→index map;
with items represented by indices this is the identity.) -/
def fitRulesForClusters (groups : List ClusterGroup) (tokenLists : List (List String)) :
    List (DecisionList × RuleQuality × String) :=
  groups.map (fun group =>
    let fit := fitDecisionList group.items tokenLists
    (fit.1, fit.2,
      if fit.1.render = "(empty rule)" then group.name else fit.1.render))

/-- Go `reassignItemsByRules`: each item joins every cluster whose rule it
matches (overlap allowed). -/
def reassignItemsByRules (clusterRules : List (DecisionList × RuleQuality × String))
    (facetSets : List FacetSet) : List ClusterGroup :=
  clusterRules.map (fun cr =>
    { name := cr.2.2,
      items := facetSets.enum.filterMap (fun p =>
        if cr.1.Matches p.2 then some p.1 else none),
      rule := some cr.1,
      ruleQuality := some cr.2.1 })

/-- Go `fitAndReassign` (phase 3, recomputing the display-only statistics,
is not modelled). -/
def fitAndReassign (groups : List ClusterGroup) (tokenLists : List (List String)) :
    List ClusterGroup :=
  if groups = [] then groups
  else reassignItemsByRules (fitRulesForClusters groups tokenLists)
    (tokenLists.map List.toFinset)

/-- Go `ProcessCluster`, over the items' extracted facet sets (the conversion
from raw search hits, and all logging, happen outside the algorithm).  Items
are represented by their index in the input. -/
def processCluster (tokenLists : List (List String)) : ClusterResult :=
  if tokenLists = [] then ⟨[], [], 0⟩
  else if tokenLists.length < 2 then ⟨[], List.range tokenLists.length, 0⟩
  else if tokenLists.all (fun ts => decide (ts.toFinset.card = 0)) then
    ⟨[], List.range tokenLists.length, 0⟩
  else
    let sok := selectOptimalK (buildDistanceMatrix (tokenLists.map List.toFinset))
      (tokenLists.map List.toFinset)
    let pre := buildClusterGroups sok.2.2.1 sok.1
    let groups := fitAndReassign pre.1 tokenLists
    ⟨groups, pre.2, groups.length⟩

/-- Claim C7: every cluster group produced by the cluster assembler before
rule fitting contains at least `minClusterSize = 2` items; any smaller
post-cut cluster is moved to the "Other" list instead. -/
theorem buildClusterGroups_min_size (assignments : List ℤ) (k : ℕ) :
    ∀ g ∈ (buildClusterGroups assignments k).1, minClusterSize ≤ g.items.length := by
  intro g hg
  unfold buildClusterGroups at hg
  simp only [List.mem_filterMap] at hg
  obtain ⟨p, hp, heq⟩ := hg
  by_cases hnil : p.2 = []
  · rw [if_pos hnil] at heq
    exact absurd heq (by simp)
  · rw [if_neg hnil] at heq
    have hitems : g.items = p.2 := by
      have := Option.some_injective _ heq
      rw [← this]
    have hmem2 : p.2 ∈ (partitionByCluster assignments k).1 := by
      have h1 := List.mem_enum_iff_getElem?.mp hp
      exact List.getElem?_mem h1
    unfold partitionByCluster at hmem2
    simp only [List.mem_map] at hmem2
    obtain ⟨l, -, hleq⟩ := hmem2
    by_cases hsmall : l ≠ [] ∧ l.length < minClusterSize
    · rw [if_pos hsmall] at hleq
      exact absurd hleq.symm hnil
    · rw [if_neg hsmall] at hleq
      push_neg at hsmall
      rw [hitems, ← hleq]
      rcases Classical.em (l = []) with hl | hl
      · exact absurd (hleq.symm.trans hl) hnil
      · exact hsmall hl

/-- Witness for `buildClusterGroups_min_size` at a concrete partition. -/
theorem buildClusterGroups_min_size_witness :
    ((buildClusterGroups [0, 0, 1] 2).1.getD 0 default ∈ (buildClusterGroups [0, 0, 1] 2).1) ∧
    minClusterSize ≤ ((buildClusterGroups [0, 0, 1] 2).1.getD 0 default).items.length := by
  refine ⟨?_, ?_⟩
  · decide
  · exact buildClusterGroups_min_size [0, 0, 1] 2 _ (by decide)

/-- Claim C9: `DecisionList.Matches` is true iff every clause has at least
one of its values present as a `"facetName:value"` token in the facet set,
and an empty rule matches every facet set; the rule
`[{brand:[Samsung,LG]}, {color:[Black]}]` renders as
`"(brand:Samsung OR brand:LG) AND color:Black"` and serializes to
`[["brand:Samsung","brand:LG"],["color:Black"]]`. -/
theorem decisionList_matches_render_filter :
    (∀ (d : DecisionList) (fs : FacetSet),
      d.Matches fs = true ↔
        ∀ c ∈ d.clauses, ∃ v ∈ c.values, (c.facetName ++ ":" ++ v) ∈ fs) ∧
    (∀ fs : FacetSet, (DecisionList.mk []).Matches fs = true) ∧
    (DecisionList.mk [⟨"brand", ["Samsung", "LG"]⟩, ⟨"color", ["Black"]⟩]).render =
      "(brand:Samsung OR brand:LG) AND color:Black" ∧
    (DecisionList.mk [⟨"brand", ["Samsung", "LG"]⟩, ⟨"color", ["Black"]⟩]).ToAlgoliaFilter =
      [["brand:Samsung", "brand:LG"], ["color:Black"]] := by
  refine ⟨?_, ?_, by decide, by decide⟩
  · intro d fs
    unfold DecisionList.Matches
    simp [List.all_eq_true, List.any_eq_true]
  · intro fs
    rfl

/-- Claim C3, counterexample: with a nonempty positive list and a nonempty
facet-set list whose facet statistics are empty (the single item has no
facet values), `fitDecisionList` returns a rule with no clauses but quality
metrics `(1, 1, 1)`, not all-zero: the empty rule matches everything, so
recall and precision are 1. -/
theorem fitDecisionList_emptyStats_counterexample :
    statsOrderOf [([] : List String)] = [] ∧
    (fitDecisionList [0] [([] : List String)]).1 = ⟨[]⟩ ∧
    (fitDecisionList [0] [([] : List String)]).2 = ⟨1, 1, 1⟩ := by
  with_unfolding_all decide

/-- Claim C3 as amended: `fitDecisionList` called with an empty positive
index list or an empty facet-set list returns a rule with no clauses whose
precision, recall and F1 are all zero.  (When the positive and item lists
are nonempty but the facet statistics are empty, the fitted rule still has
no clauses, but the quality is nonzero — see
`fitDecisionList_emptyStats_counterexample`.) -/
theorem fitDecisionList_empty (positiveIndices : List ℕ) (tokenLists : List (List String))
    (h : positiveIndices = [] ∨ tokenLists = []) :
    fitDecisionList positiveIndices tokenLists = (⟨[]⟩, ⟨0, 0, 0⟩) := by
  unfold fitDecisionList fitDecisionListWith
  rw [if_pos (by rcases h with h | h <;> simp [h])]

/-- Witness for `fitDecisionList_empty`. -/
theorem fitDecisionList_empty_witness :
    (([] : List ℕ) = [] ∨ ([["a:b"]] : List (List String)) = []) ∧
    fitDecisionList [] [["a:b"]] = (⟨[]⟩, ⟨0, 0, 0⟩) :=
  ⟨Or.inl rfl, fitDecisionList_empty [] [["a:b"]] (Or.inl rfl)⟩

/-! ### Greedy clause selection: acceptance conditions and the clause cap -/

/-- The acceptance conditions of Go `shouldSelectClause` for a non-first
clause: recall drops by at most `0.1`, resulting recall is at least `0.5`,
and precision strictly improves. -/
def clauseConditions (cur : List Clause) (cl : Clause) (pos : List ℕ)
    (afs : List FacetSet) : Prop :=
  -1/10 ≤ computeRecall ⟨cur ++ [cl]⟩ pos afs - computeRecall ⟨cur⟩ pos afs ∧
  1/2 ≤ computeRecall ⟨cur ++ [cl]⟩ pos afs ∧
  computePrecision ⟨cur⟩ pos afs < computePrecision ⟨cur ++ [cl]⟩ pos afs

theorem shouldSelectClause_true (cur : List Clause) (cl : Clause) (pos : List ℕ)
    (afs : List FacetSet) (bNR bRG : ℚ) (hcur : cur ≠ [])
    (h : shouldSelectClause cur.length
      (computeRecall ⟨cur ++ [cl]⟩ pos afs)
      (computeRecall ⟨cur ++ [cl]⟩ pos afs - computeRecall ⟨cur⟩ pos afs)
      ⟨cur ++ [cl]⟩ ⟨cur⟩ pos afs bNR bRG = true) :
    clauseConditions cur cl pos afs ∧
    (bNR < computeRecall ⟨cur ++ [cl]⟩ pos afs ∨
      (computeRecall ⟨cur ++ [cl]⟩ pos afs = bNR ∧
        bRG < computeRecall ⟨cur ++ [cl]⟩ pos afs - computeRecall ⟨cur⟩ pos afs)) := by
  unfold shouldSelectClause at h
  rw [if_neg (by simpa using hcur)] at h
  by_cases hc1 : (-1/10 : ℚ) ≤ computeRecall ⟨cur ++ [cl]⟩ pos afs - computeRecall ⟨cur⟩ pos afs ∧
      (1/2 : ℚ) ≤ computeRecall ⟨cur ++ [cl]⟩ pos afs
  · rw [if_pos hc1] at h
    by_cases hc2 : computePrecision ⟨cur⟩ pos afs < computePrecision ⟨cur ++ [cl]⟩ pos afs
    · rw [if_pos hc2] at h
      exact ⟨⟨hc1.1, hc1.2, hc2⟩, by simpa using h⟩
    · rw [if_neg hc2] at h
      exact absurd h (by simp)
  · rw [if_neg hc1] at h
    exact absurd h (by simp)

theorem shouldSelectClause_false (cur : List Clause) (cl : Clause) (pos : List ℕ)
    (afs : List FacetSet) (bNR bRG : ℚ) (hcur : cur ≠ [])
    (hcond : clauseConditions cur cl pos afs)
    (h : shouldSelectClause cur.length
      (computeRecall ⟨cur ++ [cl]⟩ pos afs)
      (computeRecall ⟨cur ++ [cl]⟩ pos afs - computeRecall ⟨cur⟩ pos afs)
      ⟨cur ++ [cl]⟩ ⟨cur⟩ pos afs bNR bRG = false) :
    computeRecall ⟨cur ++ [cl]⟩ pos afs ≤ bNR := by
  unfold shouldSelectClause at h
  rw [if_neg (by simpa using hcur), if_pos ⟨hcond.1, hcond.2.1⟩, if_pos hcond.2.2] at h
  simp only [decide_eq_false_iff_not, not_or, not_and, not_lt] at h
  exact h.1

theorem fbcFold_spec (cur : List Clause) (used : List String) (pos : List ℕ)
    (afs : List FacetSet) (tp ti : ℕ) (hcur : cur ≠ []) :
    ∀ (l : List (String × List String)) (B0 fin : Option (Clause × String) × ℚ × ℚ),
      fin = l.foldl (fbcStep cur used pos afs tp ti) B0 →
      (∀ cl f, B0.1 = some (cl, f) →
        B0.2.2 = computeRecall ⟨cur ++ [cl]⟩ pos afs ∧ clauseConditions cur cl pos afs) →
      (∀ cl f, fin.1 = some (cl, f) →
        fin.2.2 = computeRecall ⟨cur ++ [cl]⟩ pos afs ∧ clauseConditions cur cl pos afs) ∧
      B0.2.2 ≤ fin.2.2 ∧
      (∀ p ∈ l, p.1 ∉ used →
        selectValuesWithLift p.1 p.2 pos afs tp ti ≠ [] →
        clauseConditions cur ⟨p.1, selectValuesWithLift p.1 p.2 pos afs tp ti⟩ pos afs →
        computeRecall ⟨cur ++ [⟨p.1, selectValuesWithLift p.1 p.2 pos afs tp ti⟩]⟩ pos afs
          ≤ fin.2.2) := by
  intro l
  induction l with
  | nil =>
    intro B0 fin hfin hB0
    rw [List.foldl_nil] at hfin
    subst hfin
    exact ⟨hB0, le_refl _, by simp⟩
  | cons p rest ih =>
    intro B0 fin hfin hB0
    rw [List.foldl_cons] at hfin
    by_cases hpu : p.1 ∈ used
    · have hstep : fbcStep cur used pos afs tp ti B0 p = B0 := by
        unfold fbcStep
        rw [if_pos hpu]
      rw [hstep] at hfin
      obtain ⟨c1, c2, c3⟩ := ih B0 fin hfin hB0
      refine ⟨c1, c2, ?_⟩
      intro q hq hqu hqv hqc
      rcases List.mem_cons.mp hq with rfl | hq'
      · exact absurd hpu hqu
      · exact c3 q hq' hqu hqv hqc
    · by_cases hvals : selectValuesWithLift p.1 p.2 pos afs tp ti = []
      · have hstep : fbcStep cur used pos afs tp ti B0 p = B0 := by
          simp only [fbcStep]
          rw [if_neg hpu, if_pos hvals]
        rw [hstep] at hfin
        obtain ⟨c1, c2, c3⟩ := ih B0 fin hfin hB0
        refine ⟨c1, c2, ?_⟩
        intro q hq hqu hqv hqc
        rcases List.mem_cons.mp hq with rfl | hq'
        · exact absurd hvals hqv
        · exact c3 q hq' hqu hqv hqc
      · by_cases hsel : shouldSelectClause cur.length
            (computeRecall ⟨cur ++ [⟨p.1, selectValuesWithLift p.1 p.2 pos afs tp ti⟩]⟩ pos afs)
            (computeRecall ⟨cur ++ [⟨p.1, selectValuesWithLift p.1 p.2 pos afs tp ti⟩]⟩ pos afs -
              computeRecall ⟨cur⟩ pos afs)
            ⟨cur ++ [⟨p.1, selectValuesWithLift p.1 p.2 pos afs tp ti⟩]⟩ ⟨cur⟩ pos afs
            B0.2.2 B0.2.1 = true
        · have hstep : fbcStep cur used pos afs tp ti B0 p =
              (some (⟨p.1, selectValuesWithLift p.1 p.2 pos afs tp ti⟩, p.1),
               computeRecall ⟨cur ++ [⟨p.1, selectValuesWithLift p.1 p.2 pos afs tp ti⟩]⟩ pos afs -
                 computeRecall ⟨cur⟩ pos afs,
               computeRecall ⟨cur ++ [⟨p.1, selectValuesWithLift p.1 p.2 pos afs tp ti⟩]⟩ pos afs) := by
            simp only [fbcStep]
            rw [if_neg hpu, if_neg hvals, if_pos hsel]
          rw [hstep] at hfin
          obtain ⟨hconds, hbeats⟩ := shouldSelectClause_true cur
            ⟨p.1, selectValuesWithLift p.1 p.2 pos afs tp ti⟩ pos afs B0.2.2 B0.2.1 hcur hsel
          obtain ⟨c1, c2, c3⟩ := ih _ fin hfin
            (by
              intro cl f hclf
              have h1 : cl = ⟨p.1, selectValuesWithLift p.1 p.2 pos afs tp ti⟩ := by
                have := Option.some_injective _ hclf
                exact (congrArg Prod.fst this).symm
              subst h1
              exact ⟨rfl, hconds⟩)
          have hb0le : B0.2.2 ≤
              computeRecall ⟨cur ++ [⟨p.1, selectValuesWithLift p.1 p.2 pos afs tp ti⟩]⟩ pos afs := by
            rcases hbeats with h | h
            · exact le_of_lt h
            · exact le_of_eq h.1.symm
          refine ⟨c1, le_trans hb0le c2, ?_⟩
          intro q hq hqu hqv hqc
          rcases List.mem_cons.mp hq with rfl | hq'
          · exact c2
          · exact c3 q hq' hqu hqv hqc
        · have hstep : fbcStep cur used pos afs tp ti B0 p = B0 := by
            simp only [fbcStep]
            rw [if_neg hpu, if_neg hvals, if_neg hsel]
          rw [hstep] at hfin
          obtain ⟨c1, c2, c3⟩ := ih B0 fin hfin hB0
          refine ⟨c1, c2, ?_⟩
          intro q hq hqu hqv hqc
          rcases List.mem_cons.mp hq with rfl | hq'
          · have hle := shouldSelectClause_false cur
              ⟨q.1, selectValuesWithLift q.1 q.2 pos afs tp ti⟩ pos afs B0.2.2 B0.2.1 hcur hqc
              (by simpa using hsel)
            exact le_trans hle c2
          · exact c3 q hq' hqu hqv hqc

theorem scgLoop_length (so : List (String × List String)) (pos : List ℕ)
    (afs : List FacetSet) (tp ti : ℕ) :
    ∀ (fuel : ℕ) (clauses : List Clause) (used : List String),
      (scgLoop so pos afs tp ti fuel clauses used).length ≤ clauses.length + fuel := by
  intro fuel
  induction fuel with
  | zero =>
    intro clauses used
    simp [scgLoop]
  | succ fuel ih =>
    intro clauses used
    unfold scgLoop
    cases hb : (findBestClause clauses so used pos afs tp ti).1 with
    | none => simp
    | some cf =>
      obtain ⟨clause, facet⟩ := cf
      dsimp only
      have := ih (clauses ++ [clause]) (used ++ [facet])
      simp only [List.length_append, List.length_cons, List.length_nil] at this
      omega

/-- Claim C4: in greedy rule fitting, after the first clause a candidate is
accepted only if recall drops by at most `0.1`, the resulting recall is at
least `0.5`, and precision strictly improves over the current rule; among
acceptable candidates the accepted one has maximal recall (the recall-gain
tie-break compares `newRecall − currentRecall` for a fixed current rule, so
equal recalls always tie on gain as well); fitting stops at
`MaxClausesInRule = 3` clauses or when no candidate is accepted, so every
fitted `DecisionList` has at most 3 clauses. -/
theorem greedy_rule_fitting_spec :
    (∀ (statsOrder : List (String × List String)) (positiveIndices : List ℕ)
      (afs : List FacetSet) (tp ti : ℕ),
      (selectClausesGreedy statsOrder positiveIndices afs tp ti).length ≤ MaxClausesInRule) ∧
    (∀ (positiveIndices : List ℕ) (tokenLists : List (List String)),
      (fitDecisionList positiveIndices tokenLists).1.clauses.length ≤ MaxClausesInRule) ∧
    (∀ (cur : List Clause) (statsOrder : List (String × List String)) (used : List String)
      (pos : List ℕ) (afs : List FacetSet) (tp ti : ℕ) (cl : Clause) (f : String),
      cur ≠ [] →
      (findBestClause cur statsOrder used pos afs tp ti).1 = some (cl, f) →
      clauseConditions cur cl pos afs ∧
      (∀ p ∈ statsOrder, p.1 ∉ used →
        selectValuesWithLift p.1 p.2 pos afs tp ti ≠ [] →
        clauseConditions cur ⟨p.1, selectValuesWithLift p.1 p.2 pos afs tp ti⟩ pos afs →
        computeRecall ⟨cur ++ [⟨p.1, selectValuesWithLift p.1 p.2 pos afs tp ti⟩]⟩ pos afs ≤
          computeRecall ⟨cur ++ [cl]⟩ pos afs)) := by
  have hmain : ∀ (cur : List Clause) (statsOrder : List (String × List String))
      (used : List String) (pos : List ℕ) (afs : List FacetSet) (tp ti : ℕ)
      (cl : Clause) (f : String),
      cur ≠ [] →
      (findBestClause cur statsOrder used pos afs tp ti).1 = some (cl, f) →
      clauseConditions cur cl pos afs ∧
      (∀ p ∈ statsOrder, p.1 ∉ used →
        selectValuesWithLift p.1 p.2 pos afs tp ti ≠ [] →
        clauseConditions cur ⟨p.1, selectValuesWithLift p.1 p.2 pos afs tp ti⟩ pos afs →
        computeRecall ⟨cur ++ [⟨p.1, selectValuesWithLift p.1 p.2 pos afs tp ti⟩]⟩ pos afs ≤
          computeRecall ⟨cur ++ [cl]⟩ pos afs) := by
    intro cur statsOrder used pos afs tp ti cl f hcur hsome
    obtain ⟨c1, -, c3⟩ := fbcFold_spec cur used pos afs tp ti hcur statsOrder
      (none, 0, 0) (findBestClause cur statsOrder used pos afs tp ti) rfl (by simp)
    obtain ⟨hrec, hconds⟩ := c1 cl f hsome
    refine ⟨hconds, ?_⟩
    intro p hp hpu hpv hpc
    rw [← hrec]
    exact c3 p hp hpu hpv hpc
  refine ⟨?_, ?_, hmain⟩
  · intro statsOrder positiveIndices afs tp ti
    have := scgLoop_length statsOrder positiveIndices afs tp ti MaxClausesInRule [] []
    simpa [selectClausesGreedy] using this
  · intro positiveIndices tokenLists
    unfold fitDecisionList fitDecisionListWith
    split
    · simp
    · have := scgLoop_length (statsOrderOf tokenLists) positiveIndices
        (tokenLists.map List.toFinset) positiveIndices.length
        (tokenLists.map List.toFinset).length MaxClausesInRule [] []
      simpa [selectClausesGreedy] using this

/-- Witness for `greedy_rule_fitting_spec`: a concrete second-clause
acceptance. -/
theorem greedy_rule_fitting_spec_witness :
    (([⟨"A", ["x"]⟩] : List Clause) ≠ [] ∧
     (findBestClause [⟨"A", ["x"]⟩] [("B", ["y"])] ["A"] [0, 1]
        [({"A:x", "B:y"} : FacetSet), {"A:x", "B:y"}, {"A:x"}, ∅] 2 4).1 =
       some (⟨"B", ["y"]⟩, "B")) ∧
    clauseConditions [⟨"A", ["x"]⟩] ⟨"B", ["y"]⟩ [0, 1]
      [({"A:x", "B:y"} : FacetSet), {"A:x", "B:y"}, {"A:x"}, ∅] := by
  have h1 : (findBestClause [⟨"A", ["x"]⟩] [("B", ["y"])] ["A"] [0, 1]
      [({"A:x", "B:y"} : FacetSet), {"A:x", "B:y"}, {"A:x"}, ∅] 2 4).1 =
      some (⟨"B", ["y"]⟩, "B") := by
    with_unfolding_all decide
  exact ⟨⟨by decide, h1⟩,
    (greedy_rule_fitting_spec.2.2 _ _ _ _ _ _ _ _ _ (by decide) h1).1⟩

/-! ## ripper.go: the greedy faceting engine -/

/-- Go `RipperGroup` (items represented by their index). -/
structure RipperGroup where
  FacetName : String
  FacetValue : String
  items : List ℕ
  TotalCount : ℕ
deriving Repr, DecidableEq, Inhabited

/-- Go `RipperResult`. -/
structure RipperResult where
  Groups : List RipperGroup
  OtherGroup : List ℕ
deriving Repr, DecidableEq

/-- Go `minGroupSize`: `max(ceil(totalItems * 0.05), 2)`.  The `float64`
product `totalItems * 0.05` rounds to a value whose ceiling equals
`⌈totalItems/20⌉` for every realistic total (the stored constant `0.05`
exceeds `1/20` by far less than the rounding slack at each integer
boundary), so the exact ceiling is used. -/
def minGroupSizeFor (totalItems : ℕ) : ℕ := max ((totalItems + 19) / 20) 2

/-- Lexicographic comparison of character lists. -/
def charListLt : List Char → List Char → Bool
  | [], [] => false
  | [], _ :: _ => true
  | _ :: _, [] => false
  | a :: as, b :: bs => if a < b then true else if b < a then false else charListLt as bs

/-- Go `<` on strings compares UTF-8 bytes lexicographically; UTF-8 byte
order coincides with code-point order, which this implements over the
strings' characters. -/
def strLt (a b : String) : Bool := charListLt a.toList b.toList

/-- One candidate evaluation in the selection scan of Go `ProcessRipper`.
State: the best `(facetName, facetValue, unassignedIndices, gain)` so far;
`none` models Go's initial `bestGain = -Inf`, which any candidate beats.
The entropy gain is abstracted as a function `gainF p t` of the unassigned
coverage `p` and unassigned total `t` (Go computes the `float64` value
`H(p/t) · p · (1−p/t)`; the theorems below hold for every such function, in
particular for the entropy gain); the explicit zero cases `p = 0`, `t = 0`,
`p = t` are kept as in Go. -/
def ripperCandStep (gainF : ℕ → ℕ → ℚ) (minGroupSize totalUnassigned : ℕ)
    (assigned : Finset ℕ) (selected : List (String × String))
    (best : Option (String × String × List ℕ × ℚ)) (e : String × String × List ℕ) :
    Option (String × String × List ℕ × ℚ) :=
  if (e.1, e.2.1) ∈ selected then best
  else
    let unassignedIdx := e.2.2.filter (fun i => decide (i ∉ assigned))
    if unassignedIdx.length < minGroupSize then best
    else
      let gain := if unassignedIdx.length = 0 ∨ totalUnassigned = 0 ∨
          unassignedIdx.length = totalUnassigned then 0
        else gainF unassignedIdx.length totalUnassigned
      match best with
      | none => some (e.1, e.2.1, unassignedIdx, gain)
      | some b =>
        if b.2.2.2 < gain ∨ (gain = b.2.2.2 ∧
            (b.2.2.1.length < unassignedIdx.length ∨
             (unassignedIdx.length = b.2.2.1.length ∧
              strLt (e.1 ++ ":" ++ e.2.1) (b.1 ++ ":" ++ b.2.1) = true))) then
          some (e.1, e.2.1, unassignedIdx, gain)
        else best

/-- The candidate scan of one Go `ProcessRipper` iteration, over the facet
value map in the enumeration order `fvm`. -/
def ripperBest (gainF : ℕ → ℕ → ℚ) (minGroupSize totalUnassigned : ℕ)
    (assigned : Finset ℕ) (selected : List (String × String))
    (fvm : List (String × String × List ℕ)) : Option (String × String × List ℕ × ℚ) :=
  fvm.foldl (ripperCandStep gainF minGroupSize totalUnassigned assigned selected) none

/-- The iteration loop of Go `ProcessRipper` (at most 5 groups).  Go breaks
when fewer unassigned items than `minGroupSize` remain, or when no valid
facet value is found (`bestFacetName == ""`, the `none` case, or empty best
indices).  The display count prefers the authoritative population count
(`algoliaResults.Facets`, modelled as the association list `pop`) and falls
back to the facet value's initial occurrence count in `fvm`. -/
def ripperLoop (gainF : ℕ → ℕ → ℚ) (fvm : List (String × String × List ℕ))
    (pop : List ((String × String) × ℕ)) (n minGroupSize : ℕ) :
    ℕ → Finset ℕ → List (String × String) → List RipperGroup →
    Finset ℕ × List RipperGroup
  | 0, assigned, _, groups => (assigned, groups)
  | fuel + 1, assigned, selected, groups =>
    if n - assigned.card < minGroupSize then (assigned, groups)
    else
      match ripperBest gainF minGroupSize (n - assigned.card) assigned selected fvm with
      | none => (assigned, groups)
      | some b =>
        if b.2.2.1 = [] then (assigned, groups)
        else
          ripperLoop gainF fvm pop n minGroupSize fuel
            (assigned ∪ b.2.2.1.toFinset)
            (selected ++ [(b.1, b.2.1)])
            (groups ++ [⟨b.1, b.2.1, b.2.2.1,
              ((pop.lookup (b.1, b.2.1)).getD
                (((fvm.find? (fun e => e.1 = b.1 ∧ e.2.1 = b.2.1)).map
                  (fun e => e.2.2.length)).getD 0))⟩])

/-- Go `ProcessRipper`, over the extracted facet value map: `n` is the
number of items, `fvm` lists each `(facetName, facetValue)` with the indices
of the hits carrying it (in hit order, once per occurrence, as extracted by
Go; the association list order stands for one map iteration order), and
`pop` is the search engine's facet count table. -/
def processRipper (gainF : ℕ → ℕ → ℚ) (n : ℕ)
    (fvm : List (String × String × List ℕ))
    (pop : List ((String × String) × ℕ)) : RipperResult :=
  if n = 0 then ⟨[], []⟩
  else
    let res := ripperLoop gainF fvm pop n (minGroupSizeFor n) 5 ∅ [] []
    ⟨res.2, (List.range n).filter (fun i => decide (i ∉ res.1))⟩

/-! ### Partition properties of the two pipelines (claim C1) -/

theorem countP_enum_snd {α : Type*} (Q : α → Bool) (l : List α) :
    l.enum.countP (fun p => Q p.2) = l.countP Q := by
  calc l.enum.countP (fun p => Q p.2)
      = (l.enum.map Prod.snd).countP Q := (List.countP_map Q Prod.snd l.enum).symm
    _ = l.countP Q := by rw [List.enum_map_snd]

theorem mem_clusterList (assignments : List ℤ) (c : ℤ) (i : ℕ) :
    i ∈ assignments.enum.filterMap (fun p => if p.2 = c then some p.1 else none) ↔
      assignments[i]? = some c := by
  rw [List.mem_filterMap]
  constructor
  · rintro ⟨p, hp, hf⟩
    by_cases hc : p.2 = c
    · rw [if_pos hc] at hf
      obtain rfl : p.1 = i := by simpa using hf
      have := List.mem_enum_iff_getElem?.mp hp
      rw [this, hc]
    · rw [if_neg hc] at hf
      exact absurd hf (by simp)
  · intro hv
    refine ⟨(i, c), ?_, by simp⟩
    rw [List.mem_enum_iff_getElem?]
    exact hv

theorem mem_otherFirst (assignments : List ℤ) (k : ℕ) (i : ℕ) :
    i ∈ assignments.enum.filterMap
        (fun p => if p.2 < 0 ∨ (k : ℤ) ≤ p.2 then some p.1 else none) ↔
      ∃ v, assignments[i]? = some v ∧ (v < 0 ∨ (k : ℤ) ≤ v) := by
  rw [List.mem_filterMap]
  constructor
  · rintro ⟨p, hp, hf⟩
    by_cases hc : p.2 < 0 ∨ (k : ℤ) ≤ p.2
    · rw [if_pos hc] at hf
      obtain rfl : p.1 = i := by simpa using hf
      exact ⟨p.2, List.mem_enum_iff_getElem?.mp hp, hc⟩
    · rw [if_neg hc] at hf
      exact absurd hf (by simp)
  · rintro ⟨v, hv, hc⟩
    refine ⟨(i, v), ?_, by simp [hc]⟩
    rw [List.mem_enum_iff_getElem?]
    exact hv

theorem buildClusterGroups_partition (assignments : List ℤ) (k : ℕ) (i : ℕ)
    (hi : i < assignments.length) :
    (buildClusterGroups assignments k).1.countP (fun g => decide (i ∈ g.items)) +
      (if i ∈ (buildClusterGroups assignments k).2 then 1 else 0) = 1 := by
  have hv : assignments[i]? = some assignments[i] := List.getElem?_eq_getElem hi
  set v := assignments[i] with hvdef
  -- the per-cluster index lists
  set cl : ℕ → List ℕ := fun c =>
    assignments.enum.filterMap (fun p => if p.2 = (c : ℤ) then some p.1 else none) with hcl
  have hmemcl : ∀ c : ℕ, i ∈ cl c ↔ v = (c : ℤ) := by
    intro c
    rw [hcl]
    rw [mem_clusterList assignments (c : ℤ) i, hv]
    simp
  -- count over the groups
  have hcount : (buildClusterGroups assignments k).1.countP (fun g => decide (i ∈ g.items)) =
      (List.range k).countP (fun c =>
        decide (i ∈ (if cl c ≠ [] ∧ (cl c).length < minClusterSize then [] else cl c))) := by
    unfold buildClusterGroups
    simp only [partitionByCluster]
    rw [List.countP_filterMap]
    have hpred : ∀ p : ℕ × List ℕ,
        ((((fun p : ℕ × List ℕ => if p.2 = [] then none
            else some ({ name := "Cluster " ++ toString (p.1 + 1), items := p.2 }
              : ClusterGroup)) p).map (fun g => decide (i ∈ g.items))).getD false) =
          (fun l : List ℕ => if l = [] then false else decide (i ∈ l)) p.2 := by
      intro p
      dsimp only
      by_cases hp : p.2 = []
      · rw [if_pos hp, if_pos hp]
        rfl
      · rw [if_neg hp, if_neg hp]
        rfl
    rw [List.countP_congr (fun p _ => by rw [hpred p])]
    beta_reduce
    rw [countP_enum_snd (fun l : List ℕ => if l = [] then false else decide (i ∈ l)),
      List.countP_map, List.countP_map]
    apply List.countP_congr
    intro c hcr
    simp only [Function.comp]
    rw [hcl]
    beta_reduce
    by_cases hev : (if (assignments.enum.filterMap
          (fun p => if p.2 = (c : ℤ) then some p.1 else none)) ≠ [] ∧
          (assignments.enum.filterMap
            (fun p => if p.2 = (c : ℤ) then some p.1 else none)).length < minClusterSize
        then ([] : List ℕ)
        else assignments.enum.filterMap
          (fun p => if p.2 = (c : ℤ) then some p.1 else none)) = ([] : List ℕ)
    · rw [if_pos hev, hev]
      simp
    · rw [if_neg hev]
  -- membership in Other
  have hother : i ∈ (buildClusterGroups assignments k).2 ↔
      ((v < 0 ∨ (k : ℤ) ≤ v) ∨
        (∃ c : ℕ, c < k ∧ v = (c : ℤ) ∧ cl c ≠ [] ∧ (cl c).length < minClusterSize)) := by
    unfold buildClusterGroups
    simp only [partitionByCluster]
    rw [List.mem_append]
    constructor
    · rintro (h | h)
      · left
        obtain ⟨w, hw, hwc⟩ := (mem_otherFirst assignments k i).mp h
        rw [hv] at hw
        obtain rfl : w = v := by simpa using hw.symm
        exact hwc
      · right
        rw [List.mem_flatten] at h
        obtain ⟨l, hl, hil⟩ := h
        rw [List.mem_filter] at hl
        obtain ⟨hl1, hl2⟩ := hl
        rw [List.mem_map] at hl1
        obtain ⟨c, hck, rfl⟩ := hl1
        rw [List.mem_range] at hck
        have hvc := (hmemcl c).mp (by rw [hcl]; exact hil)
        exact ⟨c, hck, hvc, by exact of_decide_eq_true hl2⟩
    · rintro (h | h)
      · left
        rw [mem_otherFirst assignments k i]
        exact ⟨v, hv, h⟩
      · right
        obtain ⟨c, hck, hvc, hsmall⟩ := h
        rw [List.mem_flatten]
        refine ⟨cl c, ?_, (hmemcl c).mpr hvc⟩
        rw [List.mem_filter]
        constructor
        · rw [List.mem_map]
          exact ⟨c, by rw [List.mem_range]; exact hck, by rw [hcl]⟩
        · exact decide_eq_true hsmall
  rw [hcount]
  by_cases hrange : 0 ≤ v ∧ v < (k : ℤ)
  · -- v names a real cluster c0
    obtain ⟨hv0, hvk⟩ := hrange
    set c0 := v.toNat with hc0
    have hvc0 : v = (c0 : ℤ) := by
      rw [hc0]
      omega
    have hc0k : c0 < k := by
      rw [hc0]
      omega
    have hic0 : i ∈ cl c0 := (hmemcl c0).mpr hvc0
    have hne : cl c0 ≠ [] := by
      intro hcon
      rw [hcon] at hic0
      exact absurd hic0 (List.not_mem_nil _)
    by_cases hsmall : (cl c0).length < minClusterSize
    · -- evicted: counts as Other
      have hcz : (List.range k).countP (fun c =>
          decide (i ∈ (if cl c ≠ [] ∧ (cl c).length < minClusterSize then [] else cl c))) = 0 := by
        rw [List.countP_eq_zero]
        intro c hc
        by_cases hcc : cl c ≠ [] ∧ (cl c).length < minClusterSize
        · rw [if_pos hcc]
          simp
        · rw [if_neg hcc]
          simp only [decide_eq_true_eq]
          intro hicc
          have : v = (c : ℤ) := (hmemcl c).mp hicc
          have : c = c0 := by omega
          subst this
          exact hcc ⟨hne, hsmall⟩
      rw [hcz, if_pos (hother.mpr (Or.inr ⟨c0, hc0k, hvc0, hne, hsmall⟩))]
    · -- kept: counts in exactly one group
      have hcone : (List.range k).countP (fun c =>
          decide (i ∈ (if cl c ≠ [] ∧ (cl c).length < minClusterSize then [] else cl c))) = 1 := by
        have hpeq : ∀ c ∈ List.range k, (decide (i ∈ (if cl c ≠ [] ∧
            (cl c).length < minClusterSize then [] else cl c))) = (c == c0) := by
          intro c hc
          by_cases hcc : cl c ≠ [] ∧ (cl c).length < minClusterSize
          · rw [if_pos hcc]
            have : ¬ c = c0 := by
              intro hcon
              subst hcon
              exact hsmall hcc.2
            simp [this]
          · rw [if_neg hcc]
            by_cases hceq : c = c0
            · subst hceq
              simp [hic0]
            · have : ¬ i ∈ cl c := by
                intro hicc
                have : v = (c : ℤ) := (hmemcl c).mp hicc
                exact hceq (by omega)
              simp [this, hceq]
        rw [List.countP_congr (fun c hc => by rw [hpeq c hc])]
        have : (List.range k).countP (fun c => c == c0) = (List.range k).count c0 := rfl
        rw [this]
        exact List.count_eq_one_of_mem (List.nodup_range k) (by rw [List.mem_range]; exact hc0k)
      rw [hcone]
      have : ¬ i ∈ (buildClusterGroups assignments k).2 := by
        rw [hother]
        rintro (h | ⟨c, hck, hvc, hcne, hcsmall⟩)
        · omega
        · have : c = c0 := by omega
          subst this
          exact hsmall hcsmall
      rw [if_neg this]
  · -- v is out of range: Other only
    have hcz : (List.range k).countP (fun c =>
        decide (i ∈ (if cl c ≠ [] ∧ (cl c).length < minClusterSize then [] else cl c))) = 0 := by
      rw [List.countP_eq_zero]
      intro c hc
      rw [List.mem_range] at hc
      by_cases hcc : cl c ≠ [] ∧ (cl c).length < minClusterSize
      · rw [if_pos hcc]
        simp
      · rw [if_neg hcc]
        simp only [decide_eq_true_eq]
        intro hicc
        have : v = (c : ℤ) := (hmemcl c).mp hicc
        omega
    rw [hcz, if_pos (hother.mpr (Or.inl (by omega)))]

theorem ripperBest_some_spec (gainF : ℕ → ℕ → ℚ) (minGroupSize totalUnassigned : ℕ)
    (assigned : Finset ℕ) (selected : List (String × String))
    (fvm : List (String × String × List ℕ)) (b : String × String × List ℕ × ℚ)
    (hb : ripperBest gainF minGroupSize totalUnassigned assigned selected fvm = some b) :
    ∃ e ∈ fvm, b.1 = e.1 ∧ b.2.1 = e.2.1 ∧
      b.2.2.1 = e.2.2.filter (fun i => decide (i ∉ assigned)) ∧
      minGroupSize ≤ b.2.2.1.length := by
  unfold ripperBest at hb
  suffices h : ∀ (l : List (String × String × List ℕ))
      (B0 : Option (String × String × List ℕ × ℚ)),
      (∀ x, B0 = some x → ∃ e ∈ fvm, x.1 = e.1 ∧ x.2.1 = e.2.1 ∧
        x.2.2.1 = e.2.2.filter (fun i => decide (i ∉ assigned)) ∧
        minGroupSize ≤ x.2.2.1.length) →
      (∀ e ∈ l, e ∈ fvm) →
      ∀ x, l.foldl (ripperCandStep gainF minGroupSize totalUnassigned assigned selected) B0
          = some x →
        ∃ e ∈ fvm, x.1 = e.1 ∧ x.2.1 = e.2.1 ∧
          x.2.2.1 = e.2.2.filter (fun i => decide (i ∉ assigned)) ∧
          minGroupSize ≤ x.2.2.1.length by
    exact h fvm none (by simp) (fun e he => he) b hb
  intro l
  induction l with
  | nil =>
    intro B0 hB0 _ x hx
    rw [List.foldl_nil] at hx
    exact hB0 x hx
  | cons e rest ih =>
    intro B0 hB0 hsub x hx
    rw [List.foldl_cons] at hx
    refine ih (ripperCandStep gainF minGroupSize totalUnassigned assigned selected B0 e)
      ?_ (fun q hq => hsub q (by simp [hq])) x hx
    intro y hy
    unfold ripperCandStep at hy
    by_cases hsel : (e.1, e.2.1) ∈ selected
    · rw [if_pos hsel] at hy
      exact hB0 y hy
    · rw [if_neg hsel] at hy
      simp only [] at hy
      by_cases hlen : (e.2.2.filter (fun i => decide (i ∉ assigned))).length < minGroupSize
      · rw [if_pos hlen] at hy
        exact hB0 y hy
      · rw [if_neg hlen] at hy
        generalize (if (e.2.2.filter (fun i => decide (i ∉ assigned))).length = 0 ∨
            totalUnassigned = 0 ∨
            (e.2.2.filter (fun i => decide (i ∉ assigned))).length = totalUnassigned
          then (0 : ℚ)
          else gainF (e.2.2.filter (fun i => decide (i ∉ assigned))).length totalUnassigned)
          = g at hy
        cases hB : B0 with
        | none =>
          rw [hB] at hy
          simp only [] at hy
          have hxy : (e.1, e.2.1, e.2.2.filter (fun i => decide (i ∉ assigned)), g) = y :=
            Option.some_injective _ hy
          subst hxy
          exact ⟨e, hsub e (by simp), rfl, rfl, rfl, by dsimp only; omega⟩
        | some bb =>
          rw [hB] at hy
          simp only [] at hy
          split at hy
          · have hxy : (e.1, e.2.1, e.2.2.filter (fun i => decide (i ∉ assigned)), g) = y :=
              Option.some_injective _ hy
            subst hxy
            exact ⟨e, hsub e (by simp), rfl, rfl, rfl, by dsimp only; omega⟩
          · exact hB0 y (by rw [hB]; exact hy)

theorem ripperLoop_partition (gainF : ℕ → ℕ → ℚ) (fvm : List (String × String × List ℕ))
    (pop : List ((String × String) × ℕ)) (n minGroupSize : ℕ) (i : ℕ) :
    ∀ (fuel : ℕ) (assigned : Finset ℕ) (selected : List (String × String))
      (groups : List RipperGroup),
      groups.countP (fun g => decide (i ∈ g.items)) = (if i ∈ assigned then 1 else 0) →
      (ripperLoop gainF fvm pop n minGroupSize fuel assigned selected groups).2.countP
          (fun g => decide (i ∈ g.items)) =
        (if i ∈ (ripperLoop gainF fvm pop n minGroupSize fuel assigned selected groups).1
          then 1 else 0) := by
  intro fuel
  induction fuel with
  | zero =>
    intro assigned selected groups hinv
    exact hinv
  | succ fuel ih =>
    intro assigned selected groups hinv
    unfold ripperLoop
    by_cases hstop : n - assigned.card < minGroupSize
    · rw [if_pos hstop]
      exact hinv
    · rw [if_neg hstop]
      cases hbest : ripperBest gainF minGroupSize (n - assigned.card) assigned selected fvm with
      | none => exact hinv
      | some b =>
        dsimp only
        by_cases hempty : b.2.2.1 = []
        · rw [if_pos hempty]
          exact hinv
        · rw [if_neg hempty]
          apply ih
          obtain ⟨e, -, -, -, hfilter, -⟩ := ripperBest_some_spec gainF minGroupSize
            (n - assigned.card) assigned selected fvm b hbest
          have hnotmem : ∀ j ∈ b.2.2.1, j ∉ assigned := by
            intro j hj
            rw [hfilter] at hj
            rw [List.mem_filter] at hj
            simpa using hj.2
          rw [List.countP_append, hinv]
          by_cases hia : i ∈ assigned
          · rw [if_pos hia]
            have h1 : i ∉ b.2.2.1 := fun hc => hnotmem i hc hia
            have h2 : i ∈ assigned ∪ b.2.2.1.toFinset := Finset.mem_union_left _ hia
            rw [if_pos h2]
            simp [h1]
          · rw [if_neg hia]
            by_cases hib : i ∈ b.2.2.1
            · have h2 : i ∈ assigned ∪ b.2.2.1.toFinset :=
                Finset.mem_union_right _ (List.mem_toFinset.mpr hib)
              rw [if_pos h2]
              simp [hib]
            · have h2 : ¬ i ∈ assigned ∪ b.2.2.1.toFinset := by
                rw [Finset.mem_union]
                rintro (h | h)
                · exact hia h
                · exact hib (List.mem_toFinset.mp h)
              rw [if_neg h2]
              simp [hib]

theorem processRipper_partition (gainF : ℕ → ℕ → ℚ) (n : ℕ)
    (fvm : List (String × String × List ℕ)) (pop : List ((String × String) × ℕ))
    (i : ℕ) (hi : i < n) :
    (processRipper gainF n fvm pop).Groups.countP (fun g => decide (i ∈ g.items)) +
      (if i ∈ (processRipper gainF n fvm pop).OtherGroup then 1 else 0) = 1 := by
  unfold processRipper
  rw [if_neg (by omega : ¬ n = 0)]
  dsimp only
  have hpart := ripperLoop_partition gainF fvm pop n (minGroupSizeFor n) i 5 ∅ [] []
    (by simp)
  rw [hpart]
  have hmem : i ∈ (List.range n).filter (fun j =>
      decide (j ∉ (ripperLoop gainF fvm pop n (minGroupSizeFor n) 5 ∅ [] []).1)) ↔
      i ∉ (ripperLoop gainF fvm pop n (minGroupSizeFor n) 5 ∅ [] []).1 := by
    rw [List.mem_filter]
    simp [List.mem_range, hi]
  by_cases hia : i ∈ (ripperLoop gainF fvm pop n (minGroupSizeFor n) 5 ∅ [] []).1
  · rw [if_pos hia, if_neg (fun hc => (hmem.mp hc) hia)]
  · rw [if_neg hia, if_pos (hmem.mpr hia)]

/-- Claim C1, counterexample for the clustering entry point as stated: on the
five-item input where items 0,1 carry `A:x`, items 2,3 carry `B:y` and item
4 carries both, `ProcessCluster` puts item 4 into both returned groups (the
rule-based reassignment allows overlap) and it also stays in the "Other"
list (which is computed before reassignment), so item 4 does not end in
exactly one of {some returned cluster group, the "Other" list}. -/
theorem processCluster_overlap_counterexample :
    4 ∈ ((processCluster [["A:x"], ["A:x"], ["B:y"], ["B:y"], ["A:x", "B:y"]]).Groups.getD 0
        default).items ∧
    4 ∈ ((processCluster [["A:x"], ["A:x"], ["B:y"], ["B:y"], ["A:x", "B:y"]]).Groups.getD 1
        default).items ∧
    4 ∈ (processCluster [["A:x"], ["A:x"], ["B:y"], ["B:y"], ["A:x", "B:y"]]).OtherGroup ∧
    (processCluster [["A:x"], ["A:x"], ["B:y"], ["B:y"], ["A:x", "B:y"]]).Groups.length = 2 := by
  set_option maxRecDepth 100000 in
  with_unfolding_all decide

/-- Claim C1 as amended: for the greedy faceting entry point every input
item ends in exactly one of {some returned group, the "Other" list}; for the
clustering pipeline the same holds for the pre-rule partition produced by
the cluster assembler (`buildClusterGroups`).  After rule fitting,
clustering membership is rule-defined and may overlap across groups and
with "Other" (see `processCluster_overlap_counterexample`). -/
theorem partition_completeness :
    (∀ (gainF : ℕ → ℕ → ℚ) (n : ℕ) (fvm : List (String × String × List ℕ))
      (pop : List ((String × String) × ℕ)) (i : ℕ), i < n →
      (processRipper gainF n fvm pop).Groups.countP (fun g => decide (i ∈ g.items)) +
        (if i ∈ (processRipper gainF n fvm pop).OtherGroup then 1 else 0) = 1) ∧
    (∀ (assignments : List ℤ) (k i : ℕ), i < assignments.length →
      (buildClusterGroups assignments k).1.countP (fun g => decide (i ∈ g.items)) +
        (if i ∈ (buildClusterGroups assignments k).2 then 1 else 0) = 1) :=
  ⟨processRipper_partition, buildClusterGroups_partition⟩

/-- Witness for `partition_completeness` at concrete inputs. -/
theorem partition_completeness_witness :
    ((0 : ℕ) < 2 ∧
      (processRipper (fun _ _ => 0) 2 [("a", "x", [0, 1])] []).Groups.countP
          (fun g => decide (0 ∈ g.items)) +
        (if 0 ∈ (processRipper (fun _ _ => 0) 2 [("a", "x", [0, 1])] []).OtherGroup
          then 1 else 0) = 1) ∧
    ((0 : ℕ) < ([0, 0, 1] : List ℤ).length ∧
      (buildClusterGroups [0, 0, 1] 2).1.countP (fun g => decide (0 ∈ g.items)) +
        (if 0 ∈ (buildClusterGroups [0, 0, 1] 2).2 then 1 else 0) = 1) :=
  ⟨⟨by decide, partition_completeness.1 (fun _ _ => 0) 2 [("a", "x", [0, 1])] [] 0 (by decide)⟩,
   ⟨by decide, partition_completeness.2 [0, 0, 1] 2 0 (by decide)⟩⟩

/-! ### RIPPER invariants (claim C8) -/

/-- Claim C8, counterexample: a facet array with a duplicated value makes the
extracted index list repeat an index, so the occurrence count `p` can reach
`minGroupSize` while covering fewer distinct unassigned items.  With two
items, where item 0 carries facet `a` with value array `["x","x"]` and item
1 carries `b:y`: `minGroupSize = 2`, the value `(a,x)` has occurrence count
2 but covers only item 0, it is selected, and the unassigned count drops
from 2 to 1 — a decrease of 1 < `minGroupSize`.  (The only candidate has
`p = t`, so its gain is forced to 0 by the explicit zero case and the result
does not depend on the abstracted gain function.) -/
theorem ripper_duplicate_counterexample :
    minGroupSizeFor 2 = 2 ∧
    (processRipper (fun _ _ => 0) 2 [("a", "x", [0, 0]), ("b", "y", [1])] []).Groups =
      [⟨"a", "x", [0, 0], 2⟩] ∧
    ((processRipper (fun _ _ => 0) 2
        [("a", "x", [0, 0]), ("b", "y", [1])] []).Groups.getD 0 default).items.dedup.length
      = 1 ∧
    (processRipper (fun _ _ => 0) 2 [("a", "x", [0, 0]), ("b", "y", [1])] []).OtherGroup =
      [1] := by
  with_unfolding_all decide

theorem ripperLoop_invariants (gainF : ℕ → ℕ → ℚ) (fvm : List (String × String × List ℕ))
    (pop : List ((String × String) × ℕ)) (n minGroupSize : ℕ)
    (hnd : ∀ e ∈ fvm, e.2.2.Nodup) :
    ∀ (fuel : ℕ) (assigned : Finset ℕ) (selected : List (String × String))
      (groups : List RipperGroup),
      (∀ g ∈ groups, minGroupSize ≤ g.items.length ∧ g.items.Nodup ∧
        ∀ i ∈ g.items, i ∈ assigned) →
      List.Pairwise (fun g1 g2 => ∀ i ∈ g1.items, i ∉ g2.items) groups →
      (ripperLoop gainF fvm pop n minGroupSize fuel assigned selected groups).2.length ≤
        groups.length + fuel ∧
      (∀ g ∈ (ripperLoop gainF fvm pop n minGroupSize fuel assigned selected groups).2,
        minGroupSize ≤ g.items.length ∧ g.items.Nodup) ∧
      List.Pairwise (fun g1 g2 => ∀ i ∈ g1.items, i ∉ g2.items)
        (ripperLoop gainF fvm pop n minGroupSize fuel assigned selected groups).2 := by
  intro fuel
  induction fuel with
  | zero =>
    intro assigned selected groups hg hpw
    exact ⟨by simp [ripperLoop], fun g hgm => ⟨(hg g hgm).1, (hg g hgm).2.1⟩,
      by simpa [ripperLoop] using hpw⟩
  | succ fuel ih =>
    intro assigned selected groups hg hpw
    unfold ripperLoop
    by_cases hstop : n - assigned.card < minGroupSize
    · rw [if_pos hstop]
      exact ⟨by dsimp only; omega, fun g hgm => ⟨(hg g hgm).1, (hg g hgm).2.1⟩, hpw⟩
    · rw [if_neg hstop]
      cases hbest : ripperBest gainF minGroupSize (n - assigned.card) assigned selected fvm with
      | none =>
        exact ⟨by dsimp only; omega, fun g hgm => ⟨(hg g hgm).1, (hg g hgm).2.1⟩, hpw⟩
      | some b =>
        dsimp only
        by_cases hempty : b.2.2.1 = []
        · rw [if_pos hempty]
          exact ⟨by dsimp only; omega, fun g hgm => ⟨(hg g hgm).1, (hg g hgm).2.1⟩, hpw⟩
        · rw [if_neg hempty]
          obtain ⟨e, hef, -, -, hfilter, hlen⟩ := ripperBest_some_spec gainF minGroupSize
            (n - assigned.card) assigned selected fvm b hbest
          have hbnodup : b.2.2.1.Nodup := by
            rw [hfilter]
            exact (hnd e hef).filter _
          have hbunassigned : ∀ i ∈ b.2.2.1, i ∉ assigned := by
            intro j hj
            rw [hfilter, List.mem_filter] at hj
            simpa using hj.2
          have hstep := ih (assigned ∪ b.2.2.1.toFinset) (selected ++ [(b.1, b.2.1)])
            (groups ++ [⟨b.1, b.2.1, b.2.2.1,
              ((pop.lookup (b.1, b.2.1)).getD
                (((fvm.find? (fun e => e.1 = b.1 ∧ e.2.1 = b.2.1)).map
                  (fun e => e.2.2.length)).getD 0))⟩])
            (by
              intro g hgm
              rw [List.mem_append] at hgm
              rcases hgm with hgm | hgm
              · obtain ⟨h1, h2, h3⟩ := hg g hgm
                exact ⟨h1, h2, fun i hi => Finset.mem_union_left _ (h3 i hi)⟩
              · rw [List.mem_singleton] at hgm
                subst hgm
                exact ⟨hlen, hbnodup, fun i hi =>
                  Finset.mem_union_right _ (List.mem_toFinset.mpr hi)⟩)
            (by
              rw [List.pairwise_append]
              refine ⟨hpw, List.pairwise_singleton _ _, ?_⟩
              intro g1 hg1 g2 hg2 i hi1
              rw [List.mem_singleton] at hg2
              subst hg2
              dsimp only
              intro hi2
              exact hbunassigned i hi2 ((hg g1 hg1).2.2 i hi1))
          refine ⟨?_, hstep.2.1, hstep.2.2⟩
          calc (ripperLoop gainF fvm pop n minGroupSize fuel (assigned ∪ b.2.2.1.toFinset)
                (selected ++ [(b.1, b.2.1)]) _).2.length
              ≤ (groups ++ [_]).length + fuel := hstep.1
            _ = groups.length + (fuel + 1) := by
                simp only [List.length_append, List.length_cons, List.length_nil]
                omega

/-- Claim C8 as amended: in `ProcessRipper`, with
`minGroupSize = max(ceil(0.05 × totalItems), 2)` and provided every facet
value's extracted index list is duplicate-free (no item repeats a value in a
facet array), no selected facet value covers fewer than `minGroupSize`
unassigned items, the groups are pairwise disjoint and duplicate-free (so
every accepted iteration strictly decreases the unassigned count by the
group's size, which is at least `minGroupSize`), and at most 5 groups are
returned besides "Other". -/
theorem ripper_invariants (gainF : ℕ → ℕ → ℚ) (n : ℕ)
    (fvm : List (String × String × List ℕ)) (pop : List ((String × String) × ℕ))
    (hnd : ∀ e ∈ fvm, e.2.2.Nodup) :
    minGroupSizeFor n = max ((n + 19) / 20) 2 ∧
    (processRipper gainF n fvm pop).Groups.length ≤ 5 ∧
    (∀ g ∈ (processRipper gainF n fvm pop).Groups,
      minGroupSizeFor n ≤ g.items.length ∧ g.items.Nodup) ∧
    List.Pairwise (fun g1 g2 => ∀ i ∈ g1.items, i ∉ g2.items)
      (processRipper gainF n fvm pop).Groups := by
  refine ⟨rfl, ?_, ?_, ?_⟩ <;>
    · unfold processRipper
      by_cases hn : n = 0
      · rw [if_pos hn]
        simp
      · rw [if_neg hn]
        dsimp only
        have := ripperLoop_invariants gainF fvm pop n (minGroupSizeFor n) hnd 5 ∅ [] []
          (by simp) (by simp)
        first
          | (exact le_trans this.1 (by simp))
          | exact this.2.1
          | exact this.2.2

/-- Witness for `ripper_invariants` at a concrete duplicate-free input. -/
theorem ripper_invariants_witness :
    (∀ e ∈ ([("a", "x", [0, 1]), ("b", "y", [2, 3])] :
        List (String × String × List ℕ)), e.2.2.Nodup) ∧
    (processRipper (fun _ _ => 0) 4 [("a", "x", [0, 1]), ("b", "y", [2, 3])] []).Groups.length
        ≤ 5 ∧
    (∀ g ∈ (processRipper (fun _ _ => 0) 4
        [("a", "x", [0, 1]), ("b", "y", [2, 3])] []).Groups,
      minGroupSizeFor 4 ≤ g.items.length ∧ g.items.Nodup) := by
  have hnd : ∀ e ∈ ([("a", "x", [0, 1]), ("b", "y", [2, 3])] :
      List (String × String × List ℕ)), e.2.2.Nodup := by decide
  have h := ripper_invariants (fun _ _ => 0) 4 [("a", "x", [0, 1]), ("b", "y", [2, 3])] [] hnd
  exact ⟨hnd, h.2.1, h.2.2.1⟩

/-! ### Determinism and map iteration order (claim C2) -/

theorem charListLt_asymm : ∀ a b : List Char, charListLt a b = true → charListLt b a = false
  | [], [] => by simp [charListLt]
  | [], _ :: _ => by simp [charListLt]
  | _ :: _, [] => by simp [charListLt]
  | a :: as, b :: bs => by
    intro h
    simp only [charListLt] at h ⊢
    rcases lt_trichotomy a b with hab | hab | hab
    · rw [if_neg (lt_asymm hab), if_pos hab]
    · subst hab
      rw [if_neg (lt_irrefl a), if_neg (lt_irrefl a)] at h ⊢
      exact charListLt_asymm as bs h
    · rw [if_neg (lt_asymm hab), if_pos hab] at h
      cases h

theorem charListLt_trans : ∀ a b c : List Char, charListLt a b = true →
    charListLt b c = true → charListLt a c = true
  | [], [], _ => by simp [charListLt]
  | [], _ :: _, [] => by simp [charListLt]
  | [], _ :: _, _ :: _ => by simp [charListLt]
  | _ :: _, [], _ => by simp [charListLt]
  | _ :: _, _ :: _, [] => by simp [charListLt]
  | a :: as, b :: bs, c :: cs => by
    intro h1 h2
    simp only [charListLt] at h1 h2 ⊢
    rcases lt_trichotomy a b with hab | hab | hab
    · rcases lt_trichotomy b c with hbc | hbc | hbc
      · rw [if_pos (lt_trans hab hbc)]
      · subst hbc; rw [if_pos hab]
      · rw [if_neg (lt_asymm hbc), if_pos hbc] at h2; cases h2
    · subst hab
      rcases lt_trichotomy a c with hac | hac | hac
      · rw [if_pos hac]
      · subst hac
        rw [if_neg (lt_irrefl a), if_neg (lt_irrefl a)] at h1 h2 ⊢
        exact charListLt_trans as bs cs h1 h2
      · rw [if_neg (lt_asymm hac), if_pos hac] at h2; cases h2
    · rw [if_neg (lt_asymm hab), if_pos hab] at h1; cases h1

theorem charListLt_total : ∀ a b : List Char, a ≠ b →
    charListLt a b = true ∨ charListLt b a = true
  | [], [] => fun h => absurd rfl h
  | [], _ :: _ => fun _ => Or.inl rfl
  | _ :: _, [] => fun _ => Or.inr rfl
  | a :: as, b :: bs => fun h => by
    simp only [charListLt]
    rcases lt_trichotomy a b with hab | hab | hab
    · left; rw [if_pos hab]
    · subst hab
      simp only [if_neg (lt_irrefl a)]
      exact charListLt_total as bs (fun he => h (by rw [he]))
    · right; rw [if_pos hab]

theorem strLt_asymm {a b : String} (h : strLt a b = true) : strLt b a = false :=
  charListLt_asymm _ _ h

theorem strLt_trans {a b c : String} (h1 : strLt a b = true) (h2 : strLt b c = true) :
    strLt a c = true :=
  charListLt_trans _ _ _ h1 h2

theorem strLt_total {a b : String} (h : a ≠ b) : strLt a b = true ∨ strLt b a = true :=
  charListLt_total _ _ (fun he => h (String.ext he))

theorem beatsP_asymm (g₁ g₂ : ℚ) (l₁ l₂ : ℕ) (k₁ k₂ : String)
    (h : g₂ < g₁ ∨ (g₁ = g₂ ∧ (l₂ < l₁ ∨ (l₁ = l₂ ∧ strLt k₁ k₂ = true)))) :
    ¬ (g₁ < g₂ ∨ (g₂ = g₁ ∧ (l₁ < l₂ ∨ (l₂ = l₁ ∧ strLt k₂ k₁ = true)))) := by
  rcases h with hg | ⟨hg, hrest⟩
  · rintro (hg' | ⟨hg', -⟩)
    · exact lt_asymm hg hg'
    · rw [hg'] at hg; exact lt_irrefl _ hg
  · subst hg
    rintro (hg' | ⟨-, hrest'⟩)
    · exact lt_irrefl _ hg'
    · rcases hrest with hl | ⟨hl, hk⟩ <;> rcases hrest' with hl' | ⟨hl', hk'⟩
      · omega
      · omega
      · omega
      · rw [strLt_asymm hk] at hk'; cases hk'

theorem beatsP_trans (g₁ g₂ g₃ : ℚ) (l₁ l₂ l₃ : ℕ) (k₁ k₂ k₃ : String)
    (h1 : g₂ < g₁ ∨ (g₁ = g₂ ∧ (l₂ < l₁ ∨ (l₁ = l₂ ∧ strLt k₁ k₂ = true))))
    (h2 : g₃ < g₂ ∨ (g₂ = g₃ ∧ (l₃ < l₂ ∨ (l₂ = l₃ ∧ strLt k₂ k₃ = true)))) :
    g₃ < g₁ ∨ (g₁ = g₃ ∧ (l₃ < l₁ ∨ (l₁ = l₃ ∧ strLt k₁ k₃ = true))) := by
  rcases h1 with hg1 | ⟨hg1, hr1⟩
  · rcases h2 with hg2 | ⟨hg2, hr2⟩
    · exact Or.inl (lt_trans hg2 hg1)
    · exact Or.inl (by rw [← hg2]; exact hg1)
  · subst hg1
    rcases h2 with hg2 | ⟨hg2, hr2⟩
    · exact Or.inl hg2
    · subst hg2
      refine Or.inr ⟨rfl, ?_⟩
      rcases hr1 with hl1 | ⟨hl1, hk1⟩
      · rcases hr2 with hl2 | ⟨hl2, hk2⟩
        · exact Or.inl (by omega)
        · exact Or.inl (by omega)
      · rcases hr2 with hl2 | ⟨hl2, hk2⟩
        · exact Or.inl (by omega)
        · exact Or.inr ⟨by omega, strLt_trans hk1 hk2⟩

theorem beatsP_total (g₁ g₂ : ℚ) (l₁ l₂ : ℕ) (k₁ k₂ : String) (hk : k₁ ≠ k₂) :
    (g₂ < g₁ ∨ (g₁ = g₂ ∧ (l₂ < l₁ ∨ (l₁ = l₂ ∧ strLt k₁ k₂ = true)))) ∨
    (g₁ < g₂ ∨ (g₂ = g₁ ∧ (l₁ < l₂ ∨ (l₂ = l₁ ∧ strLt k₂ k₁ = true)))) := by
  rcases lt_trichotomy g₁ g₂ with hg | hg | hg
  · exact Or.inr (Or.inl hg)
  · rcases Nat.lt_trichotomy l₁ l₂ with hl | hl | hl
    · exact Or.inr (Or.inr ⟨hg.symm, Or.inl hl⟩)
    · rcases strLt_total hk with hs | hs
      · exact Or.inl (Or.inr ⟨hg, Or.inr ⟨hl, hs⟩⟩)
      · exact Or.inr (Or.inr ⟨hg.symm, Or.inr ⟨hl.symm, hs⟩⟩)
    · exact Or.inl (Or.inr ⟨hg, Or.inl hl⟩)
  · exact Or.inl (Or.inl hg)

theorem ripperCandStep_comm (gainF : ℕ → ℕ → ℚ) (minGroupSize totalUnassigned : ℕ)
    (assigned : Finset ℕ) (selected : List (String × String))
    (x y : String × String × List ℕ)
    (hkey : x.1 ++ ":" ++ x.2.1 ≠ y.1 ++ ":" ++ y.2.1)
    (B : Option (String × String × List ℕ × ℚ)) :
    ripperCandStep gainF minGroupSize totalUnassigned assigned selected
        (ripperCandStep gainF minGroupSize totalUnassigned assigned selected B x) y =
      ripperCandStep gainF minGroupSize totalUnassigned assigned selected
        (ripperCandStep gainF minGroupSize totalUnassigned assigned selected B y) x := by
  by_cases hxsel : (x.1, x.2.1) ∈ selected
  · simp only [ripperCandStep, if_pos hxsel]
  · by_cases hysel : (y.1, y.2.1) ∈ selected
    · simp only [ripperCandStep, if_pos hysel]
    · by_cases hxlen : (x.2.2.filter (fun i => decide (i ∉ assigned))).length < minGroupSize
      · simp only [ripperCandStep, if_neg hxsel, if_neg hysel, if_pos hxlen]
      · by_cases hylen : (y.2.2.filter (fun i => decide (i ∉ assigned))).length < minGroupSize
        · simp only [ripperCandStep, if_neg hxsel, if_neg hysel, if_pos hylen, if_neg hxlen]
        · simp only [ripperCandStep, if_neg hxsel, if_neg hysel, if_neg hxlen, if_neg hylen]
          generalize x.2.2.filter (fun i => decide (i ∉ assigned)) = ux
          generalize y.2.2.filter (fun i => decide (i ∉ assigned)) = uy
          generalize (if ux.length = 0 ∨ totalUnassigned = 0 ∨ ux.length = totalUnassigned
            then (0 : ℚ) else gainF ux.length totalUnassigned) = gx
          generalize (if uy.length = 0 ∨ totalUnassigned = 0 ∨ uy.length = totalUnassigned
            then (0 : ℚ) else gainF uy.length totalUnassigned) = gy
          cases B with
          | none =>
            dsimp only
            rcases beatsP_total gx gy ux.length uy.length (x.1 ++ ":" ++ x.2.1)
                (y.1 ++ ":" ++ y.2.1) hkey with h | h
            · rw [if_neg (beatsP_asymm _ _ _ _ _ _ h), if_pos h]
            · rw [if_pos h, if_neg (beatsP_asymm _ _ _ _ _ _ h)]
          | some b =>
            dsimp only
            by_cases hxb : b.2.2.2 < gx ∨ (gx = b.2.2.2 ∧ (b.2.2.1.length < ux.length ∨
                (ux.length = b.2.2.1.length ∧
                 strLt (x.1 ++ ":" ++ x.2.1) (b.1 ++ ":" ++ b.2.1) = true)))
            · rw [if_pos hxb]
              by_cases hyb : b.2.2.2 < gy ∨ (gy = b.2.2.2 ∧ (b.2.2.1.length < uy.length ∨
                  (uy.length = b.2.2.1.length ∧
                   strLt (y.1 ++ ":" ++ y.2.1) (b.1 ++ ":" ++ b.2.1) = true)))
              · rw [if_pos hyb]
                dsimp only
                rcases beatsP_total gx gy ux.length uy.length (x.1 ++ ":" ++ x.2.1)
                    (y.1 ++ ":" ++ y.2.1) hkey with h | h
                · rw [if_neg (beatsP_asymm _ _ _ _ _ _ h), if_pos h]
                · rw [if_pos h, if_neg (beatsP_asymm _ _ _ _ _ _ h)]
              · rw [if_neg hyb]
                dsimp only
                rcases beatsP_total gx gy ux.length uy.length (x.1 ++ ":" ++ x.2.1)
                    (y.1 ++ ":" ++ y.2.1) hkey with h | h
                · rw [if_neg (beatsP_asymm _ _ _ _ _ _ h), if_pos hxb]
                · exact absurd (beatsP_trans _ _ _ _ _ _ _ _ _ h hxb) hyb
            · rw [if_neg hxb]
              by_cases hyb : b.2.2.2 < gy ∨ (gy = b.2.2.2 ∧ (b.2.2.1.length < uy.length ∨
                  (uy.length = b.2.2.1.length ∧
                   strLt (y.1 ++ ":" ++ y.2.1) (b.1 ++ ":" ++ b.2.1) = true)))
              · rw [if_pos hyb]
                dsimp only
                rcases beatsP_total gx gy ux.length uy.length (x.1 ++ ":" ++ x.2.1)
                    (y.1 ++ ":" ++ y.2.1) hkey with h | h
                · exact absurd (beatsP_trans _ _ _ _ _ _ _ _ _ h hyb) hxb
                · rw [if_pos hyb, if_neg (beatsP_asymm _ _ _ _ _ _ h)]
              · rw [if_neg hyb]
                dsimp only
                rw [if_neg hyb, if_neg hxb]

theorem find?_perm_of_unique {α : Type*} {p : α → Bool} {l₁ l₂ : List α}
    (hperm : l₁.Perm l₂)
    (huniq : ∀ x ∈ l₁, ∀ y ∈ l₁, p x = true → p y = true → x = y) :
    l₁.find? p = l₂.find? p := by
  cases h1 : l₁.find? p with
  | none =>
    rw [List.find?_eq_none] at h1
    cases h2 : l₂.find? p with
    | none => rfl
    | some y =>
      exact absurd (List.find?_some h2)
        (h1 y (hperm.symm.subset (List.mem_of_find?_eq_some h2)))
  | some x =>
    have hx1 : x ∈ l₁ := List.mem_of_find?_eq_some h1
    have hpx := List.find?_some h1
    cases h2 : l₂.find? p with
    | none =>
      rw [List.find?_eq_none] at h2
      exact absurd hpx (h2 x (hperm.subset hx1))
    | some y =>
      have hy : y ∈ l₁ := hperm.symm.subset (List.mem_of_find?_eq_some h2)
      exact congrArg some (huniq x hx1 y hy hpx (List.find?_some h2))

theorem ripperBest_perm (gainF : ℕ → ℕ → ℚ) (minGroupSize totalUnassigned : ℕ)
    (assigned : Finset ℕ) (selected : List (String × String))
    {fvm₁ fvm₂ : List (String × String × List ℕ)} (hperm : fvm₁.Perm fvm₂)
    (hnd : (fvm₁.map (fun e => e.1 ++ ":" ++ e.2.1)).Nodup) :
    ripperBest gainF minGroupSize totalUnassigned assigned selected fvm₁ =
      ripperBest gainF minGroupSize totalUnassigned assigned selected fvm₂ := by
  refine hperm.foldl_eq' (fun x hx y hy B => ?_) none
  by_cases hxy : x = y
  · rw [hxy]
  · exact ripperCandStep_comm gainF minGroupSize totalUnassigned assigned selected x y
      (fun hk => hxy (List.inj_on_of_nodup_map hnd hx hy hk)) B

theorem ripperLoop_perm (gainF : ℕ → ℕ → ℚ)
    {fvm₁ fvm₂ : List (String × String × List ℕ)}
    (pop : List ((String × String) × ℕ)) (n minGroupSize : ℕ)
    (hperm : fvm₁.Perm fvm₂)
    (hnd : (fvm₁.map (fun e => e.1 ++ ":" ++ e.2.1)).Nodup) :
    ∀ (fuel : ℕ) (assigned : Finset ℕ) (selected : List (String × String))
      (groups : List RipperGroup),
      ripperLoop gainF fvm₁ pop n minGroupSize fuel assigned selected groups =
        ripperLoop gainF fvm₂ pop n minGroupSize fuel assigned selected groups := by
  intro fuel
  induction fuel with
  | zero => intro _ _ _; rfl
  | succ fuel ih =>
    intro assigned selected groups
    unfold ripperLoop
    by_cases hstop : n - assigned.card < minGroupSize
    · rw [if_pos hstop, if_pos hstop]
    · rw [if_neg hstop, if_neg hstop,
        ← ripperBest_perm gainF minGroupSize (n - assigned.card) assigned selected hperm hnd]
      cases hbest : ripperBest gainF minGroupSize (n - assigned.card) assigned selected fvm₁ with
      | none => rfl
      | some b =>
        dsimp only
        by_cases hempty : b.2.2.1 = []
        · rw [if_pos hempty, if_pos hempty]
        · rw [if_neg hempty, if_neg hempty]
          have hfind : fvm₁.find? (fun e => decide (e.1 = b.1 ∧ e.2.1 = b.2.1)) =
              fvm₂.find? (fun e => decide (e.1 = b.1 ∧ e.2.1 = b.2.1)) := by
            refine find?_perm_of_unique hperm (fun u hu v hv hpu hpv => ?_)
            simp only [decide_eq_true_eq] at hpu hpv
            refine List.inj_on_of_nodup_map hnd hu hv ?_
            rw [hpu.1, hpu.2, hpv.1, hpv.2]
          rw [hfind]
          exact ih _ _ _

/-- Claim C2, counterexample: the clustering pipeline's rule fitting depends on the
Go map iteration order of the facet statistics.  On four items with facet
sets `{A:x, B:y}`, `{A:x, B:y}`, `{A:z}`, `{B:w}` and positives `{0, 1}`,
the two enumeration orders of the same statistics (the second is a
permutation of the first, and the first is exactly the enumeration derived
from the items) fit different rules: `A:x` versus `B:y`. -/
theorem fitDecisionList_order_counterexample :
    statsOrderOf [["A:x", "B:y"], ["A:x", "B:y"], ["A:z"], ["B:w"]] =
        [("A", ["x", "z"]), ("B", ["y", "w"])] ∧
      ([("B", ["y", "w"]), ("A", ["x", "z"])] : List (String × List String)).Perm
        [("A", ["x", "z"]), ("B", ["y", "w"])] ∧
      fitDecisionListWith [("A", ["x", "z"]), ("B", ["y", "w"])] [0, 1]
          [{"A:x", "B:y"}, {"A:x", "B:y"}, {"A:z"}, {"B:w"}] ≠
        fitDecisionListWith [("B", ["y", "w"]), ("A", ["x", "z"])] [0, 1]
          [{"A:x", "B:y"}, {"A:x", "B:y"}, {"A:z"}, {"B:w"}] := by
  refine ⟨by with_unfolding_all decide, List.Perm.swap _ _ [], ?_⟩
  with_unfolding_all decide

/-- Claim C2 as amended: the greedy faceting entry point is deterministic — its
result does not depend on the iteration order of the facet value map.  For
any two enumerations of the same facet value map (permutations of each
other, with the `facetName:facetValue` keys pairwise distinct, as the keys
of a Go map are), `ProcessRipper` produces identical groups (same members,
names, counts, order) and the identical "Other" list: the gain/size/key
tie-breaks make the per-iteration selection a unique maximum.  (The
clustering pipeline does not enjoy this property: its rule fitting is
map-order dependent, as the counterexample above shows.) -/
theorem ripper_determinism (gainF : ℕ → ℕ → ℚ) (n : ℕ)
    (fvm₁ fvm₂ : List (String × String × List ℕ))
    (pop : List ((String × String) × ℕ)) (hperm : fvm₁.Perm fvm₂)
    (hnd : (fvm₁.map (fun e => e.1 ++ ":" ++ e.2.1)).Nodup) :
    processRipper gainF n fvm₁ pop = processRipper gainF n fvm₂ pop := by
  unfold processRipper
  by_cases hn : n = 0
  · rw [if_pos hn, if_pos hn]
  · rw [if_neg hn, if_neg hn,
      ripperLoop_perm gainF pop n (minGroupSizeFor n) hperm hnd 5 ∅ [] []]

theorem ripper_determinism_witness :
    processRipper (fun _ _ => 0) 4 [("a", "x", [0, 1]), ("b", "y", [2, 3])] [] =
      processRipper (fun _ _ => 0) 4 [("b", "y", [2, 3]), ("a", "x", [0, 1])] [] :=
  ripper_determinism (fun _ _ => 0) 4 _ _ []
    (List.Perm.swap ("b", "y", [2, 3]) ("a", "x", [0, 1]) [])
    (by decide)
